import Mathlib

/-!
# Verification of the protojson encoder (`encoding/protojson/encode.go`)

A shallow embedding of the JSON encoding engine for protocol-buffer style
messages, translated from `src/encoding/protojson/encode.go`.  Reflection
capabilities (`protoreflect`), the low-level token writer
(`internal/encoding/json`), the message-set helpers
(`internal/encoding/messageset`), the feature flags (`internal/flags`) and
`proto.IsInitialized` are external collaborators of that file; where the
encoder depends on them they are modelled from the specification, as noted
in the corresponding doc comments.

Recursion over the message graph is bounded by an explicit fuel parameter
(the specification itself notes a recursion-depth guard may be needed);
running out of fuel yields the distinguished error `Err.outOfFuel`, and all
statements are made for runs where this does not occur (or hold for every
fuel).
-/

/-- Field kinds, mirroring `protoreflect.Kind` (the closed kind set of §3 of
the spec: bool, string, 4+4 integer variants per width, float, double,
bytes, enum, message, group). -/
inductive Kind where
  | bool | string
  | int32 | sint32 | sfixed32 | uint32 | fixed32
  | int64 | sint64 | uint64 | sfixed64 | fixed64
  | float | double | bytes | enum | message | group
deriving DecidableEq

/-- Field cardinality, mirroring `protoreflect.Cardinality`. -/
inductive Cardinality where
  | optional | required | repeated
deriving DecidableEq

/-- Proto syntax version of a field's enclosing file, mirroring
`protoreflect.Syntax` (only `Proto2` is tested by the encoder, via
`fd.Syntax() == pref.Proto2`). -/
inductive ProtoVer where
  | proto2 | proto3
deriving DecidableEq

/-- One value of an enum type: its number and symbolic name (mirrors
`protoreflect.EnumValueDescriptor`). -/
structure EnumValueDescriptor where
  number : Int
  name : String
deriving DecidableEq

/-- An enum type descriptor: full name and declared values (mirrors
`protoreflect.EnumDescriptor`; `Values().ByNumber` becomes a `find?` over
`values`). -/
structure EnumDescriptor where
  fullName : String
  values : List EnumValueDescriptor
deriving DecidableEq

mutual
/-- Modelled from the spec (§3 Field Descriptor): immutable schema metadata
for one field.  `containingOneof` models `fd.ContainingOneof() != nil`;
`defaultValid` models `fd.Default().IsValid()`; `message` models
`fd.Message()` (the nested message descriptor, also set for map fields to
their synthetic entry type); `mapKey`/`mapValue` model
`fd.MapKey()`/`fd.MapValue()`; `isMessageSetExt` models
`messageset.IsMessageSetExtension(fd)` (the structural predicate of the
`internal/encoding/messageset` package, not under `src/`). -/
inductive FieldDescriptor where
  | mk (kind : Kind) (cardinality : Cardinality)
      (name jsonName fullName : String) (number : Nat)
      (containingOneof : Bool) (isExtension : Bool) (ver : ProtoVer)
      (defaultValid : Bool)
      (message : Option MessageDescriptor)
      (enum : Option EnumDescriptor)
      (mapKey mapValue : Option FieldDescriptor)
      (isMessageSetExt : Bool)

/-- Modelled from the spec (§3): a message type descriptor.  `isMessageSet`
models `messageset.IsMessageSet(desc)`; `isMapEntry` models
`desc.IsMapEntry()` (used by `fd.IsMap()`). -/
inductive MessageDescriptor where
  | mk (name fullName : String) (fields : List FieldDescriptor)
      (isMessageSet : Bool) (isMapEntry : Bool)
end

def FieldDescriptor.kind : FieldDescriptor → Kind
  | .mk k _ _ _ _ _ _ _ _ _ _ _ _ _ _ => k

def FieldDescriptor.cardinality : FieldDescriptor → Cardinality
  | .mk _ c _ _ _ _ _ _ _ _ _ _ _ _ _ => c

def FieldDescriptor.name : FieldDescriptor → String
  | .mk _ _ n _ _ _ _ _ _ _ _ _ _ _ _ => n

def FieldDescriptor.jsonName : FieldDescriptor → String
  | .mk _ _ _ j _ _ _ _ _ _ _ _ _ _ _ => j

def FieldDescriptor.fullName : FieldDescriptor → String
  | .mk _ _ _ _ f _ _ _ _ _ _ _ _ _ _ => f

def FieldDescriptor.number : FieldDescriptor → Nat
  | .mk _ _ _ _ _ n _ _ _ _ _ _ _ _ _ => n

def FieldDescriptor.containingOneof : FieldDescriptor → Bool
  | .mk _ _ _ _ _ _ o _ _ _ _ _ _ _ _ => o

def FieldDescriptor.isExtension : FieldDescriptor → Bool
  | .mk _ _ _ _ _ _ _ e _ _ _ _ _ _ _ => e

def FieldDescriptor.ver : FieldDescriptor → ProtoVer
  | .mk _ _ _ _ _ _ _ _ v _ _ _ _ _ _ => v

def FieldDescriptor.defaultValid : FieldDescriptor → Bool
  | .mk _ _ _ _ _ _ _ _ _ d _ _ _ _ _ => d

def FieldDescriptor.message : FieldDescriptor → Option MessageDescriptor
  | .mk _ _ _ _ _ _ _ _ _ _ m _ _ _ _ => m

def FieldDescriptor.enum : FieldDescriptor → Option EnumDescriptor
  | .mk _ _ _ _ _ _ _ _ _ _ _ e _ _ _ => e

def FieldDescriptor.mapKey : FieldDescriptor → Option FieldDescriptor
  | .mk _ _ _ _ _ _ _ _ _ _ _ _ k _ _ => k

def FieldDescriptor.mapValue : FieldDescriptor → Option FieldDescriptor
  | .mk _ _ _ _ _ _ _ _ _ _ _ _ _ v _ => v

def FieldDescriptor.isMessageSetExt : FieldDescriptor → Bool
  | .mk _ _ _ _ _ _ _ _ _ _ _ _ _ _ s => s

def MessageDescriptor.name : MessageDescriptor → String
  | .mk n _ _ _ _ => n

def MessageDescriptor.fullName : MessageDescriptor → String
  | .mk _ f _ _ _ => f

def MessageDescriptor.fields : MessageDescriptor → List FieldDescriptor
  | .mk _ _ fs _ _ => fs

def MessageDescriptor.isMessageSet : MessageDescriptor → Bool
  | .mk _ _ _ s _ => s

def MessageDescriptor.isMapEntry : MessageDescriptor → Bool
  | .mk _ _ _ _ e => e

/-- `fd.IsMap()` of `protoreflect`: repeated message field whose message
type is a map entry (modelled from the spec, §3). -/
def FieldDescriptor.IsMap (fd : FieldDescriptor) : Bool :=
  fd.cardinality == .repeated && fd.kind == .message &&
    (match fd.message with
     | some d => d.isMapEntry
     | none => false)

/-- `fd.IsList()` of `protoreflect`: repeated and not a map (modelled from
the spec, §3). -/
def FieldDescriptor.IsList (fd : FieldDescriptor) : Bool :=
  fd.cardinality == .repeated && !fd.IsMap

/-- A map key, mirroring `protoreflect.MapKey`: a restricted subset of the
scalar kinds (bool, integer, or string). -/
inductive MapKey where
  | kbool (b : Bool)
  | kint (i : Int)
  | kuint (u : Nat)
  | kstr (s : String)
deriving DecidableEq

/-- `MapKey.Int()`: the underlying signed integer (zero for non-integer
keys, which the encoder never queries on those kinds). -/
def MapKey.keyInt : MapKey → Int
  | .kint i => i
  | .kuint u => (u : Int)
  | _ => 0

/-- `MapKey.Uint()`: the underlying unsigned integer. -/
def MapKey.keyUint : MapKey → Nat
  | .kuint u => u
  | .kint i => i.toNat
  | _ => 0

/-- `MapKey.String()`: the key's canonical string form (decimal for
integers, `true`/`false` for bool, the string itself otherwise). -/
def MapKey.keyString : MapKey → String
  | .kbool b => cond b "true" "false"
  | .kint i => toString i
  | .kuint u => toString u
  | .kstr s => s

mutual
/-- Modelled from the spec (§3 Value): a tagged union over the kind set,
plus the `invalid/absent` tag (`pref.Value{}`) used for deliberate null
emission.  Floats carry their bit pattern abstractly (no claim concerns
float semantics); bytes are a list of byte values. -/
inductive Val where
  | invalid
  | vbool (b : Bool)
  | vstr (s : String)
  | vint (i : Int)
  | vuint (u : Nat)
  | vfloat (bits : Nat)
  | vbytes (bs : List Nat)
  | venum (n : Int)
  | vmsg (m : Msg)
  | vlist (elems : List Val)
  | vmap (entries : List (MapKey × Val))

/-- Modelled from the spec (§3 Message): a reflectively-inspectable message
value: its descriptor plus the list of populated fields (declared and
extension) in internal storage order — `pop`'s order is the unspecified
iteration order of `Message.Range`. -/
inductive Msg where
  | mk (desc : MessageDescriptor) (pop : List (FieldDescriptor × Val))
end

def Msg.desc : Msg → MessageDescriptor
  | .mk d _ => d

def Msg.pop : Msg → List (FieldDescriptor × Val)
  | .mk _ p => p

def Val.IsValid : Val → Bool
  | .invalid => false
  | _ => true

/-- `Value.Bool()` (default off the populated path). -/
def Val.getBool : Val → Bool
  | .vbool b => b
  | _ => false

/-- `Value.Int()`. -/
def Val.getInt : Val → Int
  | .vint i => i
  | _ => 0

/-- `Value.Uint()`. -/
def Val.getUint : Val → Nat
  | .vuint u => u
  | _ => 0

/-- `Value.Float()` (abstract bit pattern). -/
def Val.getFloat : Val → Nat
  | .vfloat f => f
  | _ => 0

/-- `Value.Bytes()`. -/
def Val.getBytes : Val → List Nat
  | .vbytes bs => bs
  | _ => []

/-- `Value.Enum()`. -/
def Val.getEnum : Val → Int
  | .venum n => n
  | _ => 0

/-- `Value.Message()`. -/
def Val.getMsg : Val → Msg
  | .vmsg m => m
  | _ => .mk (.mk "" "" [] false false) []

/-- `Value.List()` (as the underlying element list). -/
def Val.getList : Val → List Val
  | .vlist es => es
  | _ => []

/-- `Value.Map()` (as the underlying entry list, in `Range` order). -/
def Val.getMap : Val → List (MapKey × Val)
  | .vmap es => es
  | _ => []

/-- `Value.String()`: the string for string values and the formatted
(decimal) value for numeric ones — this is what the encoder relies on when
writing 64-bit integers as JSON strings. -/
def Val.valString : Val → String
  | .vstr s => s
  | .vint i => toString i
  | .vuint u => toString u
  | .vbool b => cond b "true" "false"
  | _ => ""

/-- Descriptor identity test used by `Has`/`Get`: within one message all
field numbers (declared and extension) are distinct, so the number together
with the extension flag identifies the descriptor. -/
def fdMatch (a b : FieldDescriptor) : Bool :=
  a.number == b.number && a.isExtension == b.isExtension

/-- Modelled from the spec (§6 Reflection capability): `m.Has(fd)` — a
presence test over the populated-field list. -/
def Msg.Has (m : Msg) (fd : FieldDescriptor) : Bool :=
  (m.pop.find? (fun e => fdMatch e.1 fd)).isSome

/-- Modelled from the spec (§6): the default value `m.Get(fd)` yields for
an unpopulated field: zero value for scalars, empty list / empty map for
repeated and map fields.  Proto2 declared defaults are not modelled: the
encoder substitutes the invalid value (null) before ever emitting them, and
singular message defaults are likewise always substituted. -/
def FieldDescriptor.defaultGet (fd : FieldDescriptor) : Val :=
  if fd.IsList then .vlist []
  else if fd.IsMap then .vmap []
  else
    match fd.kind with
    | .bool => .vbool false
    | .string => .vstr ""
    | .int32 | .sint32 | .sfixed32 | .int64 | .sint64 | .sfixed64 => .vint 0
    | .uint32 | .fixed32 | .uint64 | .fixed64 => .vuint 0
    | .float | .double => .vfloat 0
    | .bytes => .vbytes []
    | .enum => .venum 0
    | .message | .group => .invalid

/-- Modelled from the spec (§6): `m.Get(fd)` — the populated value, or the
field's default when unpopulated. -/
def Msg.Get (m : Msg) (fd : FieldDescriptor) : Val :=
  match m.pop.find? (fun e => fdMatch e.1 fd) with
  | some e => e.2
  | none => fd.defaultGet

/-- Errors surfaced by the encoder.  `errorString s` models
`errors.New(s)`; `requiredNotSet` models the error returned by
`proto.IsInitialized` when a required field is unset; `outOfFuel` is the
embedding's recursion-depth guard. -/
inductive Err where
  | errorString (s : String)
  | requiredNotSet
  | outOfFuel
deriving DecidableEq

/-- One token accepted by the token writer (spec §6: object/array framing,
name, and typed scalar emitters).  `custom` stands for the output of the
external well-known-type rendering hook, which is out of scope (§1). -/
inductive Token where
  | startObject
  | endObject
  | startArray
  | endArray
  | name (s : String)
  | null
  | bool (b : Bool)
  | int (i : Int)
  | uint (u : Nat)
  | str (s : String)
  | float (bits width : Nat)
  | custom (typeName : String)
deriving DecidableEq

/-- Modelled from the spec (§6 Token Writer): the per-call append-only
output sink of `internal/encoding/json.Encoder` (not under `src/`), as the
indent unit plus the sequence of tokens written so far. -/
structure Encoder where
  indent : String
  tokens : List Token
deriving DecidableEq

def Encoder.push (e : Encoder) (t : Token) : Encoder :=
  { e with tokens := e.tokens ++ [t] }

def Encoder.StartObject (e : Encoder) : Encoder := e.push .startObject

def Encoder.EndObject (e : Encoder) : Encoder := e.push .endObject

def Encoder.StartArray (e : Encoder) : Encoder := e.push .startArray

def Encoder.EndArray (e : Encoder) : Encoder := e.push .endArray

/-- `WriteName`.  In Go this can fail on invalid UTF-8; Lean strings are
valid UTF-8 by construction, so the failure path is unrepresentable and the
operation is total here. -/
def Encoder.WriteName (e : Encoder) (s : String) : Encoder := e.push (.name s)

def Encoder.WriteNull (e : Encoder) : Encoder := e.push .null

def Encoder.WriteBool (e : Encoder) (b : Bool) : Encoder := e.push (.bool b)

def Encoder.WriteInt (e : Encoder) (i : Int) : Encoder := e.push (.int i)

def Encoder.WriteUint (e : Encoder) (u : Nat) : Encoder := e.push (.uint u)

/-- `WriteString`; total for the same reason as `WriteName`. -/
def Encoder.WriteString (e : Encoder) (s : String) : Encoder := e.push (.str s)

def Encoder.WriteFloat (e : Encoder) (bits width : Nat) : Encoder :=
  e.push (.float bits width)

/-- Minimal JSON string escaping of the token writer (modelled from the
spec: escaping is delegated to the external writer; only its determinism
and shape matter to the claims). -/
def escapeChar (c : Char) : String :=
  if c = '"' then "\\\""
  else if c = '\\' then "\\\\"
  else if c = '\n' then "\\n"
  else if c = '\t' then "\\t"
  else if c = '\r' then "\\r"
  else String.mk [c]

def escapeString (s : String) : String :=
  String.join (s.toList.map escapeChar)

/-- The byte text of one token (modelled from the spec §6; float number
formatting is delegated to the external writer and rendered here as an
injective placeholder, since no claim concerns float formatting). -/
def tokenText : Token → String
  | .startObject => "\x7b"
  | .endObject => "\x7d"
  | .startArray => "["
  | .endArray => "]"
  | .name s => "\"" ++ escapeString s ++ "\":"
  | .null => "null"
  | .bool b => cond b "true" "false"
  | .int i => toString i
  | .uint u => toString u
  | .str s => "\"" ++ escapeString s ++ "\""
  | .float bits width => "float<" ++ toString bits ++ ":" ++ toString width ++ ">"
  | .custom n => "custom<" ++ n ++ ">"

/-- Compact rendering loop: a comma is inserted before a token that starts
a new member when the previous token completed a value.  (Indentation
whitespace for a non-empty indent unit is not modelled; the `Indent` option
only participates in validation, and no claim concerns pretty-printing.) -/
def renderLoop : List Token → Bool → String
  | [], _ => ""
  | t :: rest, prevVal =>
    let isEnd := match t with
      | .endObject | .endArray => true
      | _ => false
    let sep := if prevVal && !isEnd then "," else ""
    let pv := match t with
      | .startObject | .startArray | .name _ => false
      | _ => true
    sep ++ tokenText t ++ renderLoop rest pv

/-- `Encoder.Bytes()`: the final byte buffer (modelled from the spec §6,
"produces the final byte buffer on demand"). -/
def Encoder.Bytes (e : Encoder) : String :=
  renderLoop e.tokens false

/-- `json.NewEncoder(indent)` (modelled from the spec §6: the writer is
constructed with an indent unit; Go validates that the indent consists only
of space or tab characters). -/
def NewEncoder (indent : String) : Except Err Encoder :=
  if indent.toList.all (fun c => c = ' ' || c = '\t') then
    .ok { indent := indent, tokens := [] }
  else
    .error (.errorString "indent may only be composed of space or tab characters")

/-- Standard (padded) base64 alphabet, for `base64.StdEncoding`. -/
def base64Alphabet : List Char :=
  "ABCDEFGHIJKLMNOPQRSTUVWXYZabcdefghijklmnopqrstuvwxyz0123456789+/".toList

def b64c (n : Nat) : Char := base64Alphabet.getD n 'A'

/-- `base64.StdEncoding.EncodeToString` over byte values (modelled from the
Go standard library, an external collaborator). -/
def base64Encode : List Nat → String
  | [] => ""
  | [a] => String.mk [b64c (a / 4), b64c (a % 4 * 16)] ++ "=="
  | [a, b] =>
    String.mk [b64c (a / 4), b64c (a % 4 * 16 + b / 16), b64c (b % 16 * 4)] ++ "="
  | a :: b :: c :: rest =>
    String.mk [b64c (a / 4), b64c (a % 4 * 16 + b / 16),
      b64c (b % 16 * 4 + c / 64), b64c (c % 64)] ++ base64Encode rest

/-- Splits a character sequence on the dot separator (the helper of
`nameParent`). -/
def splitOnDot : List Char → List (List Char)
  | [] => [[]]
  | c :: rest =>
    let r := splitOnDot rest
    if c = '.' then [] :: r
    else
      match r with
      | [] => [[c]]
      | h :: t => (c :: h) :: t

/-- `protoreflect.FullName.Parent()`: the full name with its last
dot-separated component removed (modelled from the spec §4.5: the parent
type's name of a message-set extension); empty when the name has a single
component. -/
def nameParent (s : String) : String :=
  match (splitOnDot s.data).dropLast with
  | [] => ""
  | parts => String.mk (List.intercalate ['.'] parts)

/-- Modelled from the spec (§4.1): the set of "custom-rendered" well-known
type full names whose rendering is delegated to the external hook
(`isCustomType` of `well_known_types.go`, not under `src/`). -/
def wellKnownTypeNames : List String :=
  ["google.protobuf.Any", "google.protobuf.Timestamp",
   "google.protobuf.Duration", "google.protobuf.BoolValue",
   "google.protobuf.Int32Value", "google.protobuf.Int64Value",
   "google.protobuf.UInt32Value", "google.protobuf.UInt64Value",
   "google.protobuf.FloatValue", "google.protobuf.DoubleValue",
   "google.protobuf.StringValue", "google.protobuf.BytesValue",
   "google.protobuf.Struct", "google.protobuf.ListValue",
   "google.protobuf.Value", "google.protobuf.FieldMask",
   "google.protobuf.Empty"]

def isCustomType (fullName : String) : Bool :=
  wellKnownTypeNames.contains fullName

/-- Modelled from `internal/flags` (not under `src/`): the package-global
feature flags; `ProtoLegacy` is the legacy-compatibility flag consulted by
the message-set check. -/
structure Flags where
  ProtoLegacy : Bool
deriving DecidableEq

/-- `MarshalOptions`: the per-encode configuration (spec §3).  The
`Resolver` capability is consumed only by the out-of-scope custom-type
hook and is not modelled; the embedded `encoder` field is threaded
explicitly through the marshal functions instead. -/
structure MarshalOptions where
  AllowPartial : Bool := false
  UseProtoNames : Bool := false
  UseEnumNumbers : Bool := false
  EmitUnpopulated : Bool := false
  Indent : String := ""
deriving DecidableEq

/-- Insertion into a sorted list per a boolean `less`, the helper of
`sortSlice`. -/
def insertSlice (less : α → α → Bool) (a : α) : List α → List α
  | [] => [a]
  | b :: l => if less a b then a :: b :: l else b :: insertSlice less a l

/-- Modelled from the Go standard library `sort.Slice` (an external
collaborator): sorts per the boolean `less`, here as insertion sort.  On
slices whose elements are pairwise strictly comparable — the case of map
keys and extension names, which are distinct — every comparison sort
produces the same result, so the choice of algorithm is immaterial. -/
def sortSlice (less : α → α → Bool) : List α → List α
  | [] => []
  | a :: l => insertSlice less a (sortSlice less l)

/-- The comparison used by `sortMap`: signed numeric for signed integer key
kinds, unsigned numeric for unsigned ones, and the canonical string form
otherwise (string and bool keys). -/
def mapKeyLess (keyKind : Kind) (a b : MapKey × Val) : Bool :=
  match keyKind with
  | .int32 | .sint32 | .sfixed32 | .int64 | .sint64 | .sfixed64 =>
    decide (a.1.keyInt < b.1.keyInt)
  | .uint32 | .fixed32 | .uint64 | .fixed64 =>
    decide (a.1.keyUint < b.1.keyUint)
  | _ => decide (a.1.keyString.data < b.1.keyString.data)

/-- `sortMap`: orders the entry list by key value for deterministic
ordering (translated from the source; entries are `(key, value)` pairs). -/
def sortMap (keyKind : Kind) (values : List (MapKey × Val)) :
    List (MapKey × Val) :=
  sortSlice (mapKeyLess keyKind) values

/-- The local `entry` struct of `marshalExtensions`: the sort key (the
possibly parent-substituted full name), the value, and the descriptor. -/
structure ExtEntry where
  key : String
  value : Val
  desc : FieldDescriptor

/-- The extension entries collected by `marshalExtensions` from the
populated-field range: extensions only, keyed by their full name, with the
parent type's name substituted for legacy message-set extensions. -/
def extEntries (pop : List (FieldDescriptor × Val)) : List ExtEntry :=
  pop.filterMap (fun e =>
    if e.1.isExtension then
      some { key := if e.1.isMessageSetExt then nameParent e.1.fullName
                    else e.1.fullName,
             value := e.2, desc := e.1 }
    else none)

/-- The comparison used on extension entries: lexicographic by key (over
the key's character sequence, which for UTF-8 text coincides with Go's
byte-wise string order). -/
def extLess (a b : ExtEntry) : Bool := decide (a.key.data < b.key.data)

mutual
/-- Modelled from the spec (§4.1/§7): `proto.IsInitialized` (not under
`src/`) checks structural completeness — recursively, across the whole
message graph — and fails iff any required field anywhere is unset.  This
is the "some required field is unset" predicate; fuel exhaustion
conservatively reports `true`. -/
def requiredNotSet : Nat → Msg → Bool
  | 0, _ => true
  | fuel + 1, m =>
    m.desc.fields.any (fun fd =>
      fd.cardinality == .required && !(m.Has fd)) ||
    popRequiredNotSet fuel m.pop

def popRequiredNotSet : Nat → List (FieldDescriptor × Val) → Bool
  | 0, _ => true
  | _ + 1, [] => false
  | fuel + 1, e :: rest =>
    valRequiredNotSet fuel e.2 || popRequiredNotSet fuel rest

def valRequiredNotSet : Nat → Val → Bool
  | 0, _ => true
  | fuel + 1, v =>
    match v with
    | .vmsg m => requiredNotSet fuel m
    | .vlist es => listRequiredNotSet fuel es
    | .vmap es => mapRequiredNotSet fuel es
    | _ => false

def listRequiredNotSet : Nat → List Val → Bool
  | 0, _ => true
  | _ + 1, [] => false
  | fuel + 1, v :: rest =>
    valRequiredNotSet fuel v || listRequiredNotSet fuel rest

def mapRequiredNotSet : Nat → List (MapKey × Val) → Bool
  | 0, _ => true
  | _ + 1, [] => false
  | fuel + 1, e :: rest =>
    valRequiredNotSet fuel e.2 || mapRequiredNotSet fuel rest
end

/-- `proto.IsInitialized(m)` as an optional error (nil iff complete). -/
def IsInitialized (fuel : Nat) (m : Msg) : Option Err :=
  if requiredNotSet fuel m then some .requiredNotSet else none

/-- The value the field loop of `marshalFields` actually marshals for a
field: `m.Get(fd)`, replaced by the invalid value (null) when the field is
unpopulated and is either a proto2 scalar with a valid default
(`isProto2Scalar`) or a singular message-typed field (`isSingularMessage`).
-/
def substitutedVal (m : Msg) (fd : FieldDescriptor) : Val :=
  let val := m.Get fd
  let isProto2Scalar := fd.ver == .proto2 && fd.defaultValid
  let isSingularMessage := fd.cardinality != .repeated && fd.message.isSome
  if !(m.Has fd) && (isProto2Scalar || isSingularMessage) then Val.invalid
  else val

/-- The name the field loop of `marshalFields` writes for a field:
`fd.JSONName()`, replaced under `UseProtoNames` by `fd.Name()` — itself
replaced by the nested message type's name for group-kind fields. -/
def fieldEmitName (o : MarshalOptions) (fd : FieldDescriptor) : String :=
  if o.UseProtoNames then
    if fd.kind == .group then
      match fd.message with
      | some d => d.name
      | none => ""
    else fd.name
  else fd.jsonName

/-- Modelled from the spec (§4.1): the external custom-rendering hook for
well-known types ("delegates entirely to an external custom-rendering hook
keyed by full type name; this hook's output replaces the normal object
framing").  Its internals are out of scope (§1); it is modelled as one
opaque token determined by the type's full name. -/
def marshalCustomType (m : Msg) (enc : Encoder) : Encoder × Option Err :=
  (enc.push (.custom m.desc.fullName), none)

mutual
/-- `marshalMessage`: custom-type dispatch, then object framing around the
fields (the deferred `EndObject` runs on the error path too). -/
def marshalMessage (o : MarshalOptions) (fl : Flags) :
    Nat → Msg → Encoder → Encoder × Option Err
  | 0, _, enc => (enc, some .outOfFuel)
  | fuel + 1, m, enc =>
    if isCustomType m.desc.fullName then marshalCustomType m enc
    else
      let enc := enc.StartObject
      let r := marshalFields o fl fuel m enc
      (r.1.EndObject, r.2)

/-- `marshalFields`: message-set rejection, then the declared fields in
declaration order, then the extensions. -/
def marshalFields (o : MarshalOptions) (fl : Flags) :
    Nat → Msg → Encoder → Encoder × Option Err
  | 0, _, enc => (enc, some .outOfFuel)
  | fuel + 1, m, enc =>
    if !fl.ProtoLegacy && m.desc.isMessageSet then
      (enc, some (.errorString "no support for proto1 MessageSets"))
    else
      match marshalFieldLoop o fl fuel m m.desc.fields enc with
      | (enc, some e) => (enc, some e)
      | (enc, none) => marshalExtensions o fl fuel m enc

/-- The `for i := 0; i < fieldDescs.Len(); i++` loop body of
`marshalFields`: presence test, unpopulated-emission policy, invalid-value
substitution, name resolution, then one name and one value. -/
def marshalFieldLoop (o : MarshalOptions) (fl : Flags) :
    Nat → Msg → List FieldDescriptor → Encoder → Encoder × Option Err
  | 0, _, _, enc => (enc, some .outOfFuel)
  | _ + 1, _, [], enc => (enc, none)
  | fuel + 1, m, fd :: rest, enc =>
    if !(m.Has fd) && (!o.EmitUnpopulated || fd.containingOneof) then
      marshalFieldLoop o fl fuel m rest enc
    else
      let enc := enc.WriteName (fieldEmitName o fd)
      match marshalValue o fl fuel (substitutedVal m fd) fd enc with
      | (enc, some e) => (enc, some e)
      | (enc, none) => marshalFieldLoop o fl fuel m rest enc

/-- `marshalValue`: dispatch on list / map / singular. -/
def marshalValue (o : MarshalOptions) (fl : Flags) :
    Nat → Val → FieldDescriptor → Encoder → Encoder × Option Err
  | 0, _, _, enc => (enc, some .outOfFuel)
  | fuel + 1, val, fd, enc =>
    if fd.IsList then marshalList o fl fuel val.getList fd enc
    else if fd.IsMap then marshalMap o fl fuel val.getMap fd enc
    else marshalSingular o fl fuel val fd enc

/-- `marshalSingular`: an invalid value renders as null; otherwise the
kind-directed dispatch table of §4.3.  The kind set is closed, so the Go
`default: panic` branch is the unreachable-variant assertion of §9. -/
def marshalSingular (o : MarshalOptions) (fl : Flags) :
    Nat → Val → FieldDescriptor → Encoder → Encoder × Option Err
  | 0, _, _, enc => (enc, some .outOfFuel)
  | fuel + 1, val, fd, enc =>
    if !val.IsValid then (enc.WriteNull, none)
    else
      match fd.kind with
      | .bool => (enc.WriteBool val.getBool, none)
      | .string => (enc.WriteString val.valString, none)
      | .int32 | .sint32 | .sfixed32 => (enc.WriteInt val.getInt, none)
      | .uint32 | .fixed32 => (enc.WriteUint val.getUint, none)
      | .int64 | .sint64 | .uint64 | .sfixed64 | .fixed64 =>
        (enc.WriteString val.valString, none)
      | .float => (enc.WriteFloat val.getFloat 32, none)
      | .double => (enc.WriteFloat val.getFloat 64, none)
      | .bytes => (enc.WriteString (base64Encode val.getBytes), none)
      | .enum =>
        let ed := fd.enum.getD { fullName := "", values := [] }
        if ed.fullName == "google.protobuf.NullValue" then
          (enc.WriteNull, none)
        else
          match ed.values.find? (fun vd => vd.number == val.getEnum) with
          | some vd =>
            if o.UseEnumNumbers then (enc.WriteInt val.getEnum, none)
            else (enc.WriteString vd.name, none)
          | none => (enc.WriteInt val.getEnum, none)
      | .message | .group => marshalMessage o fl fuel val.getMsg enc

/-- `marshalList`: array framing around the element loop. -/
def marshalList (o : MarshalOptions) (fl : Flags) :
    Nat → List Val → FieldDescriptor → Encoder → Encoder × Option Err
  | 0, _, _, enc => (enc, some .outOfFuel)
  | fuel + 1, list, fd, enc =>
    let enc := enc.StartArray
    let r := marshalListLoop o fl fuel list fd enc
    (r.1.EndArray, r.2)

def marshalListLoop (o : MarshalOptions) (fl : Flags) :
    Nat → List Val → FieldDescriptor → Encoder → Encoder × Option Err
  | 0, _, _, enc => (enc, some .outOfFuel)
  | _ + 1, [], _, enc => (enc, none)
  | fuel + 1, item :: rest, fd, enc =>
    match marshalSingular o fl fuel item fd enc with
    | (enc, some e) => (enc, some e)
    | (enc, none) => marshalListLoop o fl fuel rest fd enc

/-- `marshalMap`: object framing; collect the entries (already a list, in
range order), sort by key kind, then write the sorted list. -/
def marshalMap (o : MarshalOptions) (fl : Flags) :
    Nat → List (MapKey × Val) → FieldDescriptor → Encoder →
    Encoder × Option Err
  | 0, _, _, enc => (enc, some .outOfFuel)
  | fuel + 1, mmap, fd, enc =>
    let enc := enc.StartObject
    let keyKind := (fd.mapKey.getD fd).kind
    let r := marshalMapLoop o fl fuel (sortMap keyKind mmap) fd enc
    (r.1.EndObject, r.2)

def marshalMapLoop (o : MarshalOptions) (fl : Flags) :
    Nat → List (MapKey × Val) → FieldDescriptor → Encoder →
    Encoder × Option Err
  | 0, _, _, enc => (enc, some .outOfFuel)
  | _ + 1, [], _, enc => (enc, none)
  | fuel + 1, entry :: rest, fd, enc =>
    let enc := enc.WriteName entry.1.keyString
    match marshalSingular o fl fuel entry.2 (fd.mapValue.getD fd) enc with
    | (enc, some e) => (enc, some e)
    | (enc, none) => marshalMapLoop o fl fuel rest fd enc

/-- `marshalExtensions`: collect the populated extensions from the range
(with the message-set parent-name substitution), sort lexicographically by
key, then write them. -/
def marshalExtensions (o : MarshalOptions) (fl : Flags) :
    Nat → Msg → Encoder → Encoder × Option Err
  | 0, _, enc => (enc, some .outOfFuel)
  | fuel + 1, m, enc =>
    marshalExtLoop o fl fuel (sortSlice extLess (extEntries m.pop)) enc

def marshalExtLoop (o : MarshalOptions) (fl : Flags) :
    Nat → List ExtEntry → Encoder → Encoder × Option Err
  | 0, _, enc => (enc, some .outOfFuel)
  | _ + 1, [], enc => (enc, none)
  | fuel + 1, entry :: rest, enc =>
    let enc := enc.WriteName ("[" ++ entry.key ++ "]")
    match marshalValue o fl fuel entry.value entry.desc enc with
    | (enc, some e) => (enc, some e)
    | (enc, none) => marshalExtLoop o fl fuel rest enc
end

/-- `MarshalOptions.Marshal`: construct the encoder (validating the
indent), marshal the message body, and — only when the body succeeded — run
the completeness check when `AllowPartial` is unset, returning the produced
bytes alongside its verdict. -/
def MarshalOptions.Marshal (o : MarshalOptions) (fl : Flags) (fuel : Nat)
    (m : Msg) : Option String × Option Err :=
  match NewEncoder o.Indent with
  | .error e => (none, some e)
  | .ok enc =>
    let r := marshalMessage o fl fuel m enc
    match r.2 with
    | some e => (none, some e)
    | none =>
      if o.AllowPartial then (some r.1.Bytes, none)
      else (some r.1.Bytes, IsInitialized fuel m)

/-- The zero-configuration entry point `Marshal`. -/
def Marshal (fl : Flags) (fuel : Nat) (m : Msg) : Option String × Option Err :=
  MarshalOptions.Marshal {} fl fuel m

/-- Whether a map key value has the shape prescribed by the map's key kind
(reflection guarantees homogeneous, kind-matching keys; spec §3: keys are a
restricted subset of scalar kinds). -/
def kindKeyMatch (k : Kind) (mk : MapKey) : Bool :=
  match k, mk with
  | .int32, .kint _ | .sint32, .kint _ | .sfixed32, .kint _
  | .int64, .kint _ | .sint64, .kint _ | .sfixed64, .kint _ => true
  | .uint32, .kuint _ | .fixed32, .kuint _
  | .uint64, .kuint _ | .fixed64, .kuint _ => true
  | .string, .kstr _ => true
  | .bool, .kbool _ => true
  | _, _ => false

mutual
/-- Well-formedness of a message as reflection would hand it to the
encoder: each populated field appears once (distinct descriptor
identities), extension sort keys are distinct, declared field descriptors
are themselves distinct, non-extension descriptors, populated declared
entries carry a descriptor from the message's own field list, and the
populated values are themselves well-formed. -/
inductive MsgWf : Msg → Prop where
  | mk : pop.Pairwise (fun a b => fdMatch a.1 b.1 = false) →
      (extEntries pop).Pairwise (fun a b => a.key ≠ b.key) →
      desc.fields.Pairwise (fun a b => fdMatch a b = false) →
      (∀ fd ∈ desc.fields, fd.isExtension = false) →
      (∀ e ∈ pop, e.1.isExtension = false → e.1 ∈ desc.fields) →
      PopWf pop → MsgWf (.mk desc pop)

/-- Well-formedness of a populated-field list. -/
inductive PopWf : List (FieldDescriptor × Val) → Prop where
  | nil : PopWf []
  | cons : FieldWf fd v → PopWf rest → PopWf ((fd, v) :: rest)

/-- Well-formedness of one populated value against its descriptor. -/
inductive FieldWf : FieldDescriptor → Val → Prop where
  | list : fd.IsList = true → ListWfF fd es → FieldWf fd (.vlist es)
  | map : fd.IsMap = true → es.Pairwise (fun a b => a.1 ≠ b.1) →
      MapWfF fd es → FieldWf fd (.vmap es)
  | singular : fd.IsList = false → fd.IsMap = false → SingWf fd v →
      FieldWf fd v

/-- Well-formedness of list elements. -/
inductive ListWfF : FieldDescriptor → List Val → Prop where
  | nil : ListWfF fd []
  | cons : SingWf fd v → ListWfF fd rest → ListWfF fd (v :: rest)

/-- Well-formedness of map entries: keys match the key kind and values are
well-formed against the value descriptor. -/
inductive MapWfF : FieldDescriptor → List (MapKey × Val) → Prop where
  | nil : MapWfF fd []
  | cons : kindKeyMatch (fd.mapKey.getD fd).kind k = true →
      SingWf (fd.mapValue.getD fd) v → MapWfF fd rest →
      MapWfF fd ((k, v) :: rest)

/-- Well-formedness of a singular value: embedded messages are well-formed
(nothing else is recursed into by `marshalSingular`). -/
inductive SingWf : FieldDescriptor → Val → Prop where
  | vmsg : MsgWf m → SingWf fd (.vmsg m)
  | notMsg : (∀ m, v ≠ Val.vmsg m) → SingWf fd v
end

mutual
/-- Logical-content equivalence of values: identical scalars, pointwise
equivalent lists, and maps equal up to entry order (with equal keys and
equivalent values).  This is the "same populated fields and values,
possibly differing internal storage order" relation of the spec. -/
inductive ValEquiv : Val → Val → Prop where
  | invalid : ValEquiv .invalid .invalid
  | vbool (b : Bool) : ValEquiv (.vbool b) (.vbool b)
  | vstr (s : String) : ValEquiv (.vstr s) (.vstr s)
  | vint (i : Int) : ValEquiv (.vint i) (.vint i)
  | vuint (u : Nat) : ValEquiv (.vuint u) (.vuint u)
  | vfloat (f : Nat) : ValEquiv (.vfloat f) (.vfloat f)
  | vbytes (bs : List Nat) : ValEquiv (.vbytes bs) (.vbytes bs)
  | venum (n : Int) : ValEquiv (.venum n) (.venum n)
  | vmsg : MsgEquiv m₁ m₂ → ValEquiv (.vmsg m₁) (.vmsg m₂)
  | vlist : ListEquiv es₁ es₂ → ValEquiv (.vlist es₁) (.vlist es₂)
  | vmap : MapRel es₁ es₂ → ValEquiv (.vmap es₁) (.vmap es₂)

/-- Pointwise equivalence of lists of values. -/
inductive ListEquiv : List Val → List Val → Prop where
  | nil : ListEquiv [] []
  | cons : ValEquiv v₁ v₂ → ListEquiv l₁ l₂ → ListEquiv (v₁ :: l₁) (v₂ :: l₂)

/-- Map entry lists equal up to order: a permutation matching each entry to
one with the same key and an equivalent value (head inserted anywhere). -/
inductive MapRel :
    List (MapKey × Val) → List (MapKey × Val) → Prop where
  | nil : MapRel [] []
  | ins : ValEquiv v₁ v₂ → MapRel l₁ (l₂a ++ l₂b) →
      MapRel ((k, v₁) :: l₁) (l₂a ++ (k, v₂) :: l₂b)

/-- Populated-field lists equal up to order: a permutation matching each
entry to one with the same descriptor and an equivalent value. -/
inductive PopRel :
    List (FieldDescriptor × Val) → List (FieldDescriptor × Val) → Prop where
  | nil : PopRel [] []
  | ins : ValEquiv v₁ v₂ → PopRel l₁ (l₂a ++ l₂b) →
      PopRel ((fd, v₁) :: l₁) (l₂a ++ (fd, v₂) :: l₂b)

/-- Messages with the same logical content: the same descriptor and the
same populated fields and values, up to internal storage order. -/
inductive MsgEquiv : Msg → Msg → Prop where
  | mk : PopRel pop₁ pop₂ → MsgEquiv (.mk desc pop₁) (.mk desc pop₂)
end

/-- The tokens `marshalSingular` appends for a given value (the appended
suffix is independent of the tokens already in the encoder). -/
def singularTokens (o : MarshalOptions) (fl : Flags) (fuel : Nat) (v : Val)
    (fd : FieldDescriptor) : List Token :=
  (marshalSingular o fl fuel v fd { indent := "", tokens := [] }).1.tokens

/-- The error verdict of `marshalSingular` for a given value. -/
def singularErr (o : MarshalOptions) (fl : Flags) (fuel : Nat) (v : Val)
    (fd : FieldDescriptor) : Option Err :=
  (marshalSingular o fl fuel v fd { indent := "", tokens := [] }).2

/-- The tokens `marshalValue` appends for a given value. -/
def valueTokens (o : MarshalOptions) (fl : Flags) (fuel : Nat) (v : Val)
    (fd : FieldDescriptor) : List Token :=
  (marshalValue o fl fuel v fd { indent := "", tokens := [] }).1.tokens

/-- The error verdict of `marshalValue` for a given value. -/
def valueErr (o : MarshalOptions) (fl : Flags) (fuel : Nat) (v : Val)
    (fd : FieldDescriptor) : Option Err :=
  (marshalValue o fl fuel v fd { indent := "", tokens := [] }).2

/-- The tokens the declared-field loop appends for a given field list. -/
def fieldLoopTokens (o : MarshalOptions) (fl : Flags) (fuel : Nat) (m : Msg)
    (fds : List FieldDescriptor) : List Token :=
  (marshalFieldLoop o fl fuel m fds { indent := "", tokens := [] }).1.tokens

/-- The error verdict of the declared-field loop. -/
def fieldLoopErr (o : MarshalOptions) (fl : Flags) (fuel : Nat) (m : Msg)
    (fds : List FieldDescriptor) : Option Err :=
  (marshalFieldLoop o fl fuel m fds { indent := "", tokens := [] }).2

/-- The key-only form of the `sortMap` comparison (used to factor the
comparison through the key projection). -/
def mapKeyKL (keyKind : Kind) (k₁ k₂ : MapKey) : Bool :=
  match keyKind with
  | .int32 | .sint32 | .sfixed32 | .int64 | .sint64 | .sfixed64 =>
    decide (k₁.keyInt < k₂.keyInt)
  | .uint32 | .fixed32 | .uint64 | .fixed64 =>
    decide (k₁.keyUint < k₂.keyUint)
  | _ => decide (k₁.keyString.data < k₂.keyString.data)

/-- The token sequence the map-entry loop produces for a given (sorted)
entry list under the same fuel threading as `marshalMapLoop`: per entry,
one name token holding the key's canonical string form followed by the
value's singular transcoding. -/
def mapEmission (o : MarshalOptions) (fl : Flags) :
    Nat → List (MapKey × Val) → FieldDescriptor → List Token
  | 0, _, _ => []
  | _ + 1, [], _ => []
  | fuel + 1, e :: rest, fd =>
    Token.name e.1.keyString ::
      (singularTokens o fl fuel e.2 (fd.mapValue.getD fd) ++
        mapEmission o fl fuel rest fd)

/-- The token sequence the extension loop produces for a given (sorted)
entry list: per entry, one name token holding the bracket-wrapped key
followed by the value's transcoding. -/
def extEmission (o : MarshalOptions) (fl : Flags) :
    Nat → List ExtEntry → List Token
  | 0, _ => []
  | _ + 1, [] => []
  | fuel + 1, e :: rest =>
    Token.name ("[" ++ e.key ++ "]") ::
      (valueTokens o fl fuel e.value e.desc ++ extEmission o fl fuel rest)

/-! Concrete fixtures used by the witness theorems. -/

/-- A proto2 required scalar field. -/
def fdReqW : FieldDescriptor :=
  .mk .int32 .required "r" "r" "pkg.M.r" 1 false false .proto2 true
    none none none none false

/-- A message whose only declared field is required and unset. -/
def mReqW : Msg := .mk (.mk "M" "pkg.M" [fdReqW] false false) []

/-- A legacy message-set message. -/
def mMsgSetW : Msg := .mk (.mk "MS" "pkg.MS" [] true false) []

/-- A 64-bit integer field. -/
def fd64W : FieldDescriptor :=
  .mk .int64 .optional "n" "n" "pkg.M.n" 2 false false .proto3 false
    none none none none false

/-- A message declaring `fd64W` but leaving it unset. -/
def mEmptyW : Msg := .mk (.mk "M" "pkg.M" [fd64W] false false) []

/-- An enum descriptor with a single named value. -/
def edW : EnumDescriptor := { fullName := "pkg.E", values := [⟨0, "A"⟩] }

/-- An enum field of type `edW`. -/
def fdEnumW : FieldDescriptor :=
  .mk .enum .optional "e" "e" "pkg.M.e" 3 false false .proto3 false
    none (some edW) none none false

/-- The sentinel null-value enum descriptor. -/
def edNullW : EnumDescriptor :=
  { fullName := "google.protobuf.NullValue", values := [⟨0, "NULL_VALUE"⟩] }

/-- A field of the sentinel null-value enum type. -/
def fdNullEnumW : FieldDescriptor :=
  .mk .enum .optional "nv" "nv" "pkg.M.nv" 5 false false .proto3 false
    none (some edNullW) none none false

/-- The nested message descriptor of the group fixture. -/
def dGroupW : MessageDescriptor := .mk "MyGroup" "pkg.MyGroup" [] false false

/-- A group-kind field whose JSON name differs from the nested message's
name. -/
def fdGroupW : FieldDescriptor :=
  .mk .group .optional "mygroup" "mygroup" "pkg.M.mygroup" 4 false false
    .proto2 false (some dGroupW) none none none false

/-- A message with the group field populated (with an empty group). -/
def mGroupW : Msg :=
  .mk (.mk "M" "pkg.M" [fdGroupW] false false)
    [(fdGroupW, .vmsg (.mk dGroupW []))]

/-- The key descriptor of the map fixture (int32 keys). -/
def fdMapKeyW : FieldDescriptor :=
  .mk .int32 .optional "key" "key" "pkg.M.MpEntry.key" 1 false false .proto3
    false none none none none false

/-- The value descriptor of the map fixture (int32 values). -/
def fdMapValW : FieldDescriptor :=
  .mk .int32 .optional "value" "value" "pkg.M.MpEntry.value" 2 false false
    .proto3 false none none none none false

/-- The synthetic map-entry message descriptor of the map fixture. -/
def dMapEntryW : MessageDescriptor :=
  .mk "MpEntry" "pkg.M.MpEntry" [fdMapKeyW, fdMapValW] false true

/-- A map field with int32 keys and int32 values. -/
def fdMapW : FieldDescriptor :=
  .mk .message .repeated "mp" "mp" "pkg.M.mp" 6 false false .proto3 false
    (some dMapEntryW) none (some fdMapKeyW) (some fdMapValW) false

/-- An extension field with bracket name `[ext.a]`. -/
def fdExtAW : FieldDescriptor :=
  .mk .int32 .optional "a" "a" "ext.a" 100 false true .proto2 true
    none none none none false

/-- An extension field with bracket name `[ext.b]`. -/
def fdExtBW : FieldDescriptor :=
  .mk .int32 .optional "b" "b" "ext.b" 101 false true .proto2 true
    none none none none false

/-- A legacy message-set-style extension field. -/
def fdMsgSetExtW : FieldDescriptor :=
  .mk .message .optional "message_set_extension" "messageSetExtension"
    "pkg.Wrapper.message_set_extension" 102 false true .proto2 false
    (some (.mk "Wrapper" "pkg.Wrapper" [] false false)) none none none true

/-- A message with one populated declared field and two extensions stored
out of lexicographic order. -/
def mExtW : Msg :=
  .mk (.mk "M" "pkg.M" [fd64W] false false)
    [(fd64W, .vint 5), (fdExtBW, .vint 2), (fdExtAW, .vint 1)]

/-- Map entries of the determinism fixture, in one storage order. -/
def mapAW : List (MapKey × Val) := [(.kint 1, .vint 10), (.kint 2, .vint 20)]

/-- The same map entries in the opposite storage order. -/
def mapBW : List (MapKey × Val) := [(.kint 2, .vint 20), (.kint 1, .vint 10)]

/-- Descriptor of the determinism fixture: one declared map field. -/
def dC2W : MessageDescriptor := .mk "M" "pkg.M" [fdMapW] false false

/-- A message with a map field and two extensions in one storage order. -/
def mC2AW : Msg :=
  .mk dC2W [(fdMapW, .vmap mapAW), (fdExtAW, .vint 1), (fdExtBW, .vint 2)]

/-- The same logical content with permuted map-entry and extension
storage order. -/
def mC2BW : Msg :=
  .mk dC2W [(fdExtBW, .vint 2), (fdMapW, .vmap mapBW), (fdExtAW, .vint 1)]

theorem mapKeyLess_eq_kl (kk : Kind) (a b : MapKey × Val) :
    mapKeyLess kk a b = mapKeyKL kk a.1 b.1 := by
  cases kk <;> rfl

theorem insertSlice_perm (less : α → α → Bool) (a : α) (l : List α) :
    (insertSlice less a l).Perm (a :: l) := by
  induction l with
  | nil => exact List.Perm.refl _
  | cons b bs ih =>
    rw [insertSlice]
    split
    · exact List.Perm.refl _
    · exact (ih.cons b).trans (List.Perm.swap a b bs)

theorem sortSlice_perm (less : α → α → Bool) (l : List α) :
    (sortSlice less l).Perm l := by
  induction l with
  | nil => exact List.Perm.refl _
  | cons a as ih =>
    rw [sortSlice]
    exact (insertSlice_perm less a _).trans (ih.cons a)

theorem mem_insertSlice {less : α → α → Bool} {a b : α} {l : List α} :
    b ∈ insertSlice less a l ↔ b = a ∨ b ∈ l := by
  have h : b ∈ insertSlice less a l ↔ b ∈ a :: l :=
    (insertSlice_perm less a l).mem_iff
  simpa using h

theorem insertSlice_pairwise {less : α → α → Bool}
    (hasym : ∀ x y, less x y = true → less y x = false)
    (htrans : ∀ x y z, less x y = true → less y z = true → less x z = true)
    {a : α} {l : List α} (hs : l.Pairwise fun x y => less x y = true)
    (hcmp : ∀ b ∈ l, less a b = true ∨ less b a = true) :
    (insertSlice less a l).Pairwise fun x y => less x y = true := by
  induction l with
  | nil => simp [insertSlice]
  | cons b bs ih =>
    rw [insertSlice]
    rcases List.pairwise_cons.mp hs with ⟨hb, hbs⟩
    split
    next h =>
      refine List.pairwise_cons.mpr ⟨?_, hs⟩
      intro c hc
      rcases List.mem_cons.mp hc with rfl | hc
      · exact h
      · exact htrans a b c h (hb c hc)
    next h =>
      have hba : less b a = true := by
        rcases hcmp b (List.mem_cons_self b bs) with h1 | h1
        · exact absurd h1 h
        · exact h1
      refine List.pairwise_cons.mpr
        ⟨?_, ih hbs fun c hc => hcmp c (List.mem_cons_of_mem b hc)⟩
      intro c hc
      rcases mem_insertSlice.mp hc with rfl | hc
      · exact hba
      · exact hb c hc

theorem sortSlice_pairwise {less : α → α → Bool}
    (hasym : ∀ x y, less x y = true → less y x = false)
    (htrans : ∀ x y z, less x y = true → less y z = true → less x z = true)
    {l : List α}
    (hcmp : l.Pairwise fun x y => less x y = true ∨ less y x = true) :
    (sortSlice less l).Pairwise fun x y => less x y = true := by
  induction l with
  | nil => simp [sortSlice]
  | cons a as ih =>
    rw [sortSlice]
    rcases List.pairwise_cons.mp hcmp with ⟨ha, has⟩
    exact insertSlice_pairwise hasym htrans (ih has)
      fun b hb => ha b ((sortSlice_perm less as).mem_iff.mp hb)

theorem sortSlice_eq_of_perm {less : α → α → Bool}
    (hasym : ∀ x y, less x y = true → less y x = false)
    (htrans : ∀ x y z, less x y = true → less y z = true → less x z = true)
    {l₁ l₂ : List α} (hp : l₁.Perm l₂)
    (hcmp : l₁.Pairwise fun x y => less x y = true ∨ less y x = true) :
    sortSlice less l₁ = sortSlice less l₂ := by
  have hcmp₂ : l₂.Pairwise fun x y => less x y = true ∨ less y x = true :=
    hcmp.perm hp fun {x y} h => h.symm
  have hs₁ := sortSlice_pairwise hasym htrans hcmp
  have hs₂ := sortSlice_pairwise hasym htrans hcmp₂
  refine List.Perm.eq_of_sorted ?_ hs₁ hs₂
    (((sortSlice_perm less l₁).trans hp).trans (sortSlice_perm less l₂).symm)
  intro a b _ _ hab hba
  rw [hasym a b hab] at hba
  cases hba

theorem forall₂_mem_right {R : α → β → Prop} {l : List α} {m : List β}
    (h : List.Forall₂ R l m) {b : β} (hb : b ∈ m) : ∃ a ∈ l, R a b := by
  induction h with
  | nil => cases hb
  | cons hR hrest ih =>
    rcases List.mem_cons.mp hb with rfl | hb
    · exact ⟨_, List.mem_cons_self _ _, hR⟩
    · rcases ih hb with ⟨a, ha, hab⟩
      exact ⟨a, List.mem_cons_of_mem _ ha, hab⟩

theorem forall₂_map_key {R : α → α → Prop} {κ : Type} {key : α → κ}
    (hkey : ∀ a b, R a b → key a = key b) {l m : List α}
    (h : List.Forall₂ R l m) : l.map key = m.map key := by
  induction h with
  | nil => rfl
  | cons hR hrest ih => simp [hkey _ _ hR, ih]

theorem pairwise_of_forall₂ {R S T : α → α → Prop}
    (h : ∀ a b a' b', R a a' → R b b' → S a b → T a' b')
    {l m : List α} (hf : List.Forall₂ R l m) (hp : l.Pairwise S) :
    m.Pairwise T := by
  induction hf with
  | nil => exact .nil
  | cons hR hrest ih =>
    rcases List.pairwise_cons.mp hp with ⟨hhead, htail⟩
    refine List.pairwise_cons.mpr ⟨?_, ih htail⟩
    intro b' hb'
    rcases forall₂_mem_right hrest hb' with ⟨b, hb, hRb⟩
    exact h _ _ _ _ hR hRb (hhead b hb)

theorem pairwise_imp_mem {S T : α → α → Prop} {l : List α}
    (hS : l.Pairwise S) (himp : ∀ a b, a ∈ l → b ∈ l → S a b → T a b) :
    l.Pairwise T := by
  induction hS with
  | nil => exact .nil
  | @cons a l' ha hl' ih =>
    refine List.pairwise_cons.mpr
      ⟨?_, ih fun x y hx hy =>
        himp x y (List.mem_cons_of_mem _ hx) (List.mem_cons_of_mem _ hy)⟩
    intro b hb
    exact himp a b (List.mem_cons_self _ _) (List.mem_cons_of_mem _ hb) (ha b hb)

theorem eq_of_key_eq_of_pairwise {κ : Type} {key : α → κ} {l : List α}
    (hl : l.Pairwise fun x y => key x ≠ key y) {a b : α}
    (ha : a ∈ l) (hb : b ∈ l) (hk : key a = key b) : a = b := by
  induction l with
  | nil => cases ha
  | cons c cs ih =>
    rcases List.pairwise_cons.mp hl with ⟨hc, hcs⟩
    rcases List.mem_cons.mp ha with rfl | ha₁ <;>
      rcases List.mem_cons.mp hb with rfl | hb₁
    · rfl
    · exact absurd hk (hc b hb₁)
    · exact absurd hk.symm (hc a ha₁)
    · exact ih hcs ha₁ hb₁

theorem sortSlice_align {κ : Type} {key : α → κ} {kl : κ → κ → Bool}
    (hasym : ∀ x y, kl x y = true → kl y x = false)
    (htrans : ∀ x y z, kl x y = true → kl y z = true → kl x z = true)
    {R : α → α → Prop} (hkeyR : ∀ a b, R a b → key a = key b)
    {l₁ mid l₂ : List α}
    (hpw : List.Forall₂ R l₁ mid) (hperm : mid.Perm l₂)
    (hkd : l₁.Pairwise fun a b => key a ≠ key b)
    (htot : ∀ a ∈ l₁, ∀ b ∈ l₁, key a ≠ key b →
      kl (key a) (key b) = true ∨ kl (key b) (key a) = true) :
    List.Forall₂ R (sortSlice (fun a b => kl (key a) (key b)) l₁)
      (sortSlice (fun a b => kl (key a) (key b)) l₂) := by
  have lasym : ∀ x y : α, kl (key x) (key y) = true → kl (key y) (key x) = false :=
    fun x y h => hasym _ _ h
  have ltrans : ∀ x y z : α, kl (key x) (key y) = true →
      kl (key y) (key z) = true → kl (key x) (key z) = true :=
    fun x y z h₁ h₂ => htrans _ _ _ h₁ h₂
  have hcmp₁ : l₁.Pairwise fun x y =>
      kl (key x) (key y) = true ∨ kl (key y) (key x) = true :=
    pairwise_imp_mem hkd fun a b ha hb hne => htot a ha b hb hne
  have hs₁ := sortSlice_pairwise lasym ltrans hcmp₁
  have hRcmp : ∀ a b a' b', R a a' → R b b' →
      (kl (key a) (key b) = true ∨ kl (key b) (key a) = true) →
      (kl (key a') (key b') = true ∨ kl (key b') (key a') = true) := by
    intro a b a' b' h₁ h₂ h
    rw [← hkeyR _ _ h₁, ← hkeyR _ _ h₂]
    exact h
  have hcmpMid := pairwise_of_forall₂ hRcmp hpw hcmp₁
  have hcmp₂ : l₂.Pairwise fun x y =>
      kl (key x) (key y) = true ∨ kl (key y) (key x) = true :=
    hcmpMid.perm hperm fun {x y} h => h.symm
  have hs₂ := sortSlice_pairwise lasym ltrans hcmp₂
  have hmapeq : (sortSlice (fun a b => kl (key a) (key b)) l₁).map key =
      (sortSlice (fun a b => kl (key a) (key b)) l₂).map key := by
    have hpermKeys : List.Perm
        ((sortSlice (fun a b => kl (key a) (key b)) l₁).map key)
        ((sortSlice (fun a b => kl (key a) (key b)) l₂).map key) := by
      have p₁ := (sortSlice_perm (fun a b => kl (key a) (key b)) l₁).map key
      have e : l₁.map key = mid.map key := forall₂_map_key hkeyR hpw
      have p₂ := hperm.map key
      have p₃ := (sortSlice_perm (fun a b => kl (key a) (key b)) l₂).map key
      have pmid : List.Perm (l₁.map key) (l₂.map key) := by rw [e]; exact p₂
      exact (p₁.trans pmid).trans p₃.symm
    refine @List.Perm.eq_of_sorted _ (fun x y => kl x y = true) _ _
      ?_ ?_ ?_ hpermKeys
    · intro x y _ _ hxy hyx
      rw [hasym x y hxy] at hyx
      cases hyx
    · exact List.pairwise_map.mpr hs₁
    · exact List.pairwise_map.mpr hs₂
  rw [List.forall₂_iff_get]
  have hlen : (sortSlice (fun a b => kl (key a) (key b)) l₁).length =
      (sortSlice (fun a b => kl (key a) (key b)) l₂).length := by
    have := congrArg List.length hmapeq
    simpa using this
  refine ⟨hlen, ?_⟩
  intro i h₁ h₂
  have h₁m : i < ((sortSlice (fun a b => kl (key a) (key b)) l₁).map key).length := by
    simpa using h₁
  have h₂m : i < ((sortSlice (fun a b => kl (key a) (key b)) l₂).map key).length := by
    simpa using h₂
  have hka : key ((sortSlice (fun a b => kl (key a) (key b)) l₁).get ⟨i, h₁⟩) =
      key ((sortSlice (fun a b => kl (key a) (key b)) l₂).get ⟨i, h₂⟩) := by
    have hgm := List.get_of_eq hmapeq ⟨i, h₁m⟩
    rw [List.get_map, List.get_map] at hgm
    exact hgm
  have hamem₁ : (sortSlice (fun a b => kl (key a) (key b)) l₁).get ⟨i, h₁⟩ ∈ l₁ :=
    (sortSlice_perm _ l₁).subset (List.get_mem _ _ _)
  have hbmem₂ : (sortSlice (fun a b => kl (key a) (key b)) l₂).get ⟨i, h₂⟩ ∈ l₂ :=
    (sortSlice_perm _ l₂).subset (List.get_mem _ _ _)
  have hbmid : (sortSlice (fun a b => kl (key a) (key b)) l₂).get ⟨i, h₂⟩ ∈ mid :=
    hperm.symm.subset hbmem₂
  rcases forall₂_mem_right hpw hbmid with ⟨a', ha', hRab⟩
  have hk' : key a' = key ((sortSlice (fun a b => kl (key a) (key b)) l₂).get ⟨i, h₂⟩) :=
    hkeyR _ _ hRab
  have haa' : (sortSlice (fun a b => kl (key a) (key b)) l₁).get ⟨i, h₁⟩ = a' :=
    eq_of_key_eq_of_pairwise hkd hamem₁ ha' (by rw [hka, hk'])
  rw [haa']
  exact hRab

theorem marshalFrame (o : MarshalOptions) (fl : Flags) : ∀ fuel : Nat,
    (∀ m : Msg, ∃ out err, ∀ enc : Encoder,
      marshalMessage o fl fuel m enc =
        ({ indent := enc.indent, tokens := enc.tokens ++ out }, err)) ∧
    (∀ m : Msg, ∃ out err, ∀ enc : Encoder,
      marshalFields o fl fuel m enc =
        ({ indent := enc.indent, tokens := enc.tokens ++ out }, err)) ∧
    (∀ (m : Msg) (fds : List FieldDescriptor), ∃ out err, ∀ enc : Encoder,
      marshalFieldLoop o fl fuel m fds enc =
        ({ indent := enc.indent, tokens := enc.tokens ++ out }, err)) ∧
    (∀ (v : Val) (fd : FieldDescriptor), ∃ out err, ∀ enc : Encoder,
      marshalValue o fl fuel v fd enc =
        ({ indent := enc.indent, tokens := enc.tokens ++ out }, err)) ∧
    (∀ (v : Val) (fd : FieldDescriptor), ∃ out err, ∀ enc : Encoder,
      marshalSingular o fl fuel v fd enc =
        ({ indent := enc.indent, tokens := enc.tokens ++ out }, err)) ∧
    (∀ (vs : List Val) (fd : FieldDescriptor), ∃ out err, ∀ enc : Encoder,
      marshalList o fl fuel vs fd enc =
        ({ indent := enc.indent, tokens := enc.tokens ++ out }, err)) ∧
    (∀ (vs : List Val) (fd : FieldDescriptor), ∃ out err, ∀ enc : Encoder,
      marshalListLoop o fl fuel vs fd enc =
        ({ indent := enc.indent, tokens := enc.tokens ++ out }, err)) ∧
    (∀ (es : List (MapKey × Val)) (fd : FieldDescriptor), ∃ out err,
      ∀ enc : Encoder,
      marshalMap o fl fuel es fd enc =
        ({ indent := enc.indent, tokens := enc.tokens ++ out }, err)) ∧
    (∀ (es : List (MapKey × Val)) (fd : FieldDescriptor), ∃ out err,
      ∀ enc : Encoder,
      marshalMapLoop o fl fuel es fd enc =
        ({ indent := enc.indent, tokens := enc.tokens ++ out }, err)) ∧
    (∀ m : Msg, ∃ out err, ∀ enc : Encoder,
      marshalExtensions o fl fuel m enc =
        ({ indent := enc.indent, tokens := enc.tokens ++ out }, err)) ∧
    (∀ es : List ExtEntry, ∃ out err, ∀ enc : Encoder,
      marshalExtLoop o fl fuel es enc =
        ({ indent := enc.indent, tokens := enc.tokens ++ out }, err)) := by
  intro fuel
  induction fuel with
  | zero =>
    exact ⟨fun m => ⟨[], some .outOfFuel, fun enc => by simp [marshalMessage]⟩,
      fun m => ⟨[], some .outOfFuel, fun enc => by simp [marshalFields]⟩,
      fun m fds => ⟨[], some .outOfFuel, fun enc => by simp [marshalFieldLoop]⟩,
      fun v fd => ⟨[], some .outOfFuel, fun enc => by simp [marshalValue]⟩,
      fun v fd => ⟨[], some .outOfFuel, fun enc => by simp [marshalSingular]⟩,
      fun vs fd => ⟨[], some .outOfFuel, fun enc => by simp [marshalList]⟩,
      fun vs fd => ⟨[], some .outOfFuel, fun enc => by simp [marshalListLoop]⟩,
      fun es fd => ⟨[], some .outOfFuel, fun enc => by simp [marshalMap]⟩,
      fun es fd => ⟨[], some .outOfFuel, fun enc => by simp [marshalMapLoop]⟩,
      fun m => ⟨[], some .outOfFuel, fun enc => by simp [marshalExtensions]⟩,
      fun es => ⟨[], some .outOfFuel, fun enc => by simp [marshalExtLoop]⟩⟩
  | succ fuel ih =>
    obtain ⟨ihMsg, ihFlds, ihFL, ihVal, ihSing, ihLst, ihLL, ihMp, ihML,
      ihExt, ihEL⟩ := ih
    refine ⟨?_, ?_, ?_, ?_, ?_, ?_, ?_, ?_, ?_, ?_, ?_⟩
    · intro m
      by_cases hc : isCustomType m.desc.fullName
      · refine ⟨[.custom m.desc.fullName], none, fun enc => ?_⟩
        simp [marshalMessage, hc, marshalCustomType, Encoder.push]
      · obtain ⟨outF, errF, hF⟩ := ihFlds m
        refine ⟨.startObject :: (outF ++ [.endObject]), errF, fun enc => ?_⟩
        simp [marshalMessage, hc, Encoder.StartObject, Encoder.EndObject,
          Encoder.push, hF]
    · intro m
      by_cases hms : (!fl.ProtoLegacy && m.desc.isMessageSet) = true
      · refine ⟨[], some (.errorString "no support for proto1 MessageSets"),
          fun enc => ?_⟩
        simp [marshalFields, hms]
      · obtain ⟨outL, errL, hL⟩ := ihFL m m.desc.fields
        cases errL with
        | some e =>
          refine ⟨outL, some e, fun enc => ?_⟩
          simp [marshalFields, hms, hL]
        | none =>
          obtain ⟨outE, errE, hE⟩ := ihExt m
          refine ⟨outL ++ outE, errE, fun enc => ?_⟩
          simp [marshalFields, hms, hL, hE]
    · intro m fds
      cases fds with
      | nil => exact ⟨[], none, fun enc => by simp [marshalFieldLoop]⟩
      | cons fd rest =>
        by_cases hskip :
          (!(m.Has fd) && (!o.EmitUnpopulated || fd.containingOneof)) = true
        · obtain ⟨outR, errR, hR⟩ := ihFL m rest
          refine ⟨outR, errR, fun enc => ?_⟩
          simp [marshalFieldLoop, hskip, hR]
        · obtain ⟨outV, errV, hV⟩ := ihVal (substitutedVal m fd) fd
          cases errV with
          | some e =>
            refine ⟨.name (fieldEmitName o fd) :: outV, some e, fun enc => ?_⟩
            simp [marshalFieldLoop, hskip, hV, Encoder.WriteName, Encoder.push]
          | none =>
            obtain ⟨outR, errR, hR⟩ := ihFL m rest
            refine ⟨.name (fieldEmitName o fd) :: (outV ++ outR), errR,
              fun enc => ?_⟩
            simp [marshalFieldLoop, hskip, hV, hR, Encoder.WriteName,
              Encoder.push]
    · intro v fd
      by_cases hl : fd.IsList
      · obtain ⟨out, err, h⟩ := ihLst v.getList fd
        exact ⟨out, err, fun enc => by simp [marshalValue, hl, h]⟩
      · by_cases hm : fd.IsMap
        · obtain ⟨out, err, h⟩ := ihMp v.getMap fd
          exact ⟨out, err, fun enc => by simp [marshalValue, hl, hm, h]⟩
        · obtain ⟨out, err, h⟩ := ihSing v fd
          exact ⟨out, err, fun enc => by simp [marshalValue, hl, hm, h]⟩
    · intro v fd
      by_cases hval : v.IsValid
      · cases hk : fd.kind with
        | bool =>
          exact ⟨[.bool v.getBool], none, fun enc => by
            simp [marshalSingular, hval, hk, Encoder.WriteBool, Encoder.push]⟩
        | string =>
          exact ⟨[.str v.valString], none, fun enc => by
            simp [marshalSingular, hval, hk, Encoder.WriteString, Encoder.push]⟩
        | int32 =>
          exact ⟨[.int v.getInt], none, fun enc => by
            simp [marshalSingular, hval, hk, Encoder.WriteInt, Encoder.push]⟩
        | sint32 =>
          exact ⟨[.int v.getInt], none, fun enc => by
            simp [marshalSingular, hval, hk, Encoder.WriteInt, Encoder.push]⟩
        | sfixed32 =>
          exact ⟨[.int v.getInt], none, fun enc => by
            simp [marshalSingular, hval, hk, Encoder.WriteInt, Encoder.push]⟩
        | uint32 =>
          exact ⟨[.uint v.getUint], none, fun enc => by
            simp [marshalSingular, hval, hk, Encoder.WriteUint, Encoder.push]⟩
        | fixed32 =>
          exact ⟨[.uint v.getUint], none, fun enc => by
            simp [marshalSingular, hval, hk, Encoder.WriteUint, Encoder.push]⟩
        | int64 =>
          exact ⟨[.str v.valString], none, fun enc => by
            simp [marshalSingular, hval, hk, Encoder.WriteString, Encoder.push]⟩
        | sint64 =>
          exact ⟨[.str v.valString], none, fun enc => by
            simp [marshalSingular, hval, hk, Encoder.WriteString, Encoder.push]⟩
        | uint64 =>
          exact ⟨[.str v.valString], none, fun enc => by
            simp [marshalSingular, hval, hk, Encoder.WriteString, Encoder.push]⟩
        | sfixed64 =>
          exact ⟨[.str v.valString], none, fun enc => by
            simp [marshalSingular, hval, hk, Encoder.WriteString, Encoder.push]⟩
        | fixed64 =>
          exact ⟨[.str v.valString], none, fun enc => by
            simp [marshalSingular, hval, hk, Encoder.WriteString, Encoder.push]⟩
        | float =>
          exact ⟨[.float v.getFloat 32], none, fun enc => by
            simp [marshalSingular, hval, hk, Encoder.WriteFloat, Encoder.push]⟩
        | double =>
          exact ⟨[.float v.getFloat 64], none, fun enc => by
            simp [marshalSingular, hval, hk, Encoder.WriteFloat, Encoder.push]⟩
        | bytes =>
          exact ⟨[.str (base64Encode v.getBytes)], none, fun enc => by
            simp [marshalSingular, hval, hk, Encoder.WriteString, Encoder.push]⟩
        | enum =>
          by_cases hnull :
            ((fd.enum.getD { fullName := "", values := [] }).fullName ==
              "google.protobuf.NullValue") = true
          · refine ⟨[.null], none, fun enc => ?_⟩
            simp [marshalSingular, hval, hk, hnull, Encoder.WriteNull,
              Encoder.push]
          · cases hfind : (fd.enum.getD { fullName := "", values := [] }).values.find?
                (fun vd => vd.number == v.getEnum) with
            | some vd =>
              by_cases hnum : o.UseEnumNumbers
              · refine ⟨[.int v.getEnum], none, fun enc => ?_⟩
                simp [marshalSingular, hval, hk, hnull, hfind, hnum,
                  Encoder.WriteInt, Encoder.push]
              · refine ⟨[.str vd.name], none, fun enc => ?_⟩
                simp [marshalSingular, hval, hk, hnull, hfind, hnum,
                  Encoder.WriteString, Encoder.push]
            | none =>
              refine ⟨[.int v.getEnum], none, fun enc => ?_⟩
              simp [marshalSingular, hval, hk, hnull, hfind,
                Encoder.WriteInt, Encoder.push]
        | message =>
          obtain ⟨out, err, h⟩ := ihMsg v.getMsg
          exact ⟨out, err, fun enc => by simp [marshalSingular, hval, hk, h]⟩
        | group =>
          obtain ⟨out, err, h⟩ := ihMsg v.getMsg
          exact ⟨out, err, fun enc => by simp [marshalSingular, hval, hk, h]⟩
      · refine ⟨[.null], none, fun enc => ?_⟩
        simp [marshalSingular, hval, Encoder.WriteNull, Encoder.push]
    · intro vs fd
      obtain ⟨out, err, h⟩ := ihLL vs fd
      refine ⟨.startArray :: (out ++ [.endArray]), err, fun enc => ?_⟩
      simp [marshalList, h, Encoder.StartArray, Encoder.EndArray, Encoder.push]
    · intro vs fd
      cases vs with
      | nil => exact ⟨[], none, fun enc => by simp [marshalListLoop]⟩
      | cons v rest =>
        obtain ⟨outS, errS, hS⟩ := ihSing v fd
        cases errS with
        | some e =>
          exact ⟨outS, some e, fun enc => by simp [marshalListLoop, hS]⟩
        | none =>
          obtain ⟨outR, errR, hR⟩ := ihLL rest fd
          exact ⟨outS ++ outR, errR, fun enc => by
            simp [marshalListLoop, hS, hR]⟩
    · intro es fd
      obtain ⟨out, err, h⟩ := ihML (sortMap (fd.mapKey.getD fd).kind es) fd
      refine ⟨.startObject :: (out ++ [.endObject]), err, fun enc => ?_⟩
      simp [marshalMap, h, Encoder.StartObject, Encoder.EndObject, Encoder.push]
    · intro es fd
      cases es with
      | nil => exact ⟨[], none, fun enc => by simp [marshalMapLoop]⟩
      | cons e rest =>
        obtain ⟨outS, errS, hS⟩ := ihSing e.2 (fd.mapValue.getD fd)
        cases errS with
        | some err =>
          exact ⟨.name e.1.keyString :: outS, some err, fun enc => by
            simp [marshalMapLoop, hS, Encoder.WriteName, Encoder.push]⟩
        | none =>
          obtain ⟨outR, errR, hR⟩ := ihML rest fd
          exact ⟨.name e.1.keyString :: (outS ++ outR), errR, fun enc => by
            simp [marshalMapLoop, hS, hR, Encoder.WriteName, Encoder.push]⟩
    · intro m
      obtain ⟨out, err, h⟩ := ihEL (sortSlice extLess (extEntries m.pop))
      exact ⟨out, err, fun enc => by simp [marshalExtensions, h]⟩
    · intro es
      cases es with
      | nil => exact ⟨[], none, fun enc => by simp [marshalExtLoop]⟩
      | cons e rest =>
        obtain ⟨outV, errV, hV⟩ := ihVal e.value e.desc
        cases errV with
        | some err =>
          exact ⟨.name ("[" ++ e.key ++ "]") :: outV, some err, fun enc => by
            simp [marshalExtLoop, hV, Encoder.WriteName, Encoder.push]⟩
        | none =>
          obtain ⟨outR, errR, hR⟩ := ihEL rest
          exact ⟨.name ("[" ++ e.key ++ "]") :: (outV ++ outR), errR,
            fun enc => by
              simp [marshalExtLoop, hV, hR, Encoder.WriteName, Encoder.push]⟩

/-- C1: For every message with `AllowPartial = false` and at least one
required field unset anywhere in the message graph (and a successful body
marshal), `Marshal` returns a non-nil error AND the returned byte buffer
still contains the JSON bytes produced before the completeness check — the
check runs after byte production and does not discard the buffer. -/
theorem C1_incomplete_returns_bytes_and_error
    (o : MarshalOptions) (fl : Flags) (fuel : Nat) (m : Msg)
    (hap : o.AllowPartial = false)
    (hind : (o.Indent.toList.all fun c => c = ' ' || c = '\t') = true)
    (hbody :
      (marshalMessage o fl fuel m { indent := o.Indent, tokens := [] }).2 = none)
    (hreq : requiredNotSet fuel m = true) :
    o.Marshal fl fuel m =
      (some (marshalMessage o fl fuel m
          { indent := o.Indent, tokens := [] }).1.Bytes,
        some Err.requiredNotSet) := by
  have henc : NewEncoder o.Indent = .ok { indent := o.Indent, tokens := [] } := by
    unfold NewEncoder
    rw [if_pos hind]
  simp [MarshalOptions.Marshal, henc, hap, hbody, IsInitialized, hreq]

theorem C1_witness :
    ({} : MarshalOptions).AllowPartial = false ∧
    requiredNotSet 10 mReqW = true ∧
    (marshalMessage {} ⟨false⟩ 10 mReqW { indent := "", tokens := [] }).2 = none ∧
    MarshalOptions.Marshal {} ⟨false⟩ 10 mReqW =
      (some "\x7b\x7d", some Err.requiredNotSet) :=
  ⟨rfl, by decide, by decide, by
    have h := C1_incomplete_returns_bytes_and_error {} ⟨false⟩ 10 mReqW rfl
      (by decide) (by decide) (by decide)
    rw [h]
    decide⟩

/-- C10: For every error arising during message-body marshaling itself
(such as the MessageSet rejection) — as opposed to the post-hoc
completeness check — `Marshal` returns a nil byte slice together with the
error: the bytes-alongside-error behavior applies only to the
incomplete-message case. -/
theorem C10_body_error_returns_nil_bytes
    (o : MarshalOptions) (fl : Flags) (fuel : Nat) (m : Msg) (e : Err)
    (hind : (o.Indent.toList.all fun c => c = ' ' || c = '\t') = true)
    (hbody :
      (marshalMessage o fl fuel m { indent := o.Indent, tokens := [] }).2 = some e) :
    o.Marshal fl fuel m = (none, some e) := by
  have henc : NewEncoder o.Indent = .ok { indent := o.Indent, tokens := [] } := by
    unfold NewEncoder
    rw [if_pos hind]
  simp [MarshalOptions.Marshal, henc, hbody]

theorem C10_witness :
    (marshalMessage {} ⟨false⟩ 5 mMsgSetW { indent := "", tokens := [] }).2 =
      some (Err.errorString "no support for proto1 MessageSets") ∧
    MarshalOptions.Marshal {} ⟨false⟩ 5 mMsgSetW =
      (none, some (Err.errorString "no support for proto1 MessageSets")) :=
  ⟨by decide, C10_body_error_returns_nil_bytes {} ⟨false⟩ 5 mMsgSetW _
    (by decide) (by decide)⟩

/-- C6: For every field whose kind is a 64-bit integer variant (Int64,
Sint64, Uint64, Sfixed64, Fixed64), the emitted JSON value is a quoted
decimal string token containing the value's decimal representation, never a
bare JSON number token. -/
theorem C6_int64_as_string
    (o : MarshalOptions) (fl : Flags) (fuel : Nat) (v : Val)
    (fd : FieldDescriptor) (enc : Encoder)
    (hk : fd.kind = .int64 ∨ fd.kind = .sint64 ∨ fd.kind = .uint64 ∨
      fd.kind = .sfixed64 ∨ fd.kind = .fixed64)
    (hv : (∃ i : Int, v = .vint i) ∨ (∃ u : Nat, v = .vuint u)) :
    marshalSingular o fl (fuel + 1) v fd enc = (enc.WriteString v.valString, none) ∧
    ((∃ i : Int, v = .vint i ∧ v.valString = toString i) ∨
      (∃ u : Nat, v = .vuint u ∧ v.valString = toString u)) ∧
    tokenText (Token.str v.valString) =
      "\"" ++ escapeString v.valString ++ "\"" := by
  refine ⟨?_, ?_, rfl⟩
  · have hval : v.IsValid = true := by
      rcases hv with ⟨i, rfl⟩ | ⟨u, rfl⟩ <;> rfl
    rcases hk with hk | hk | hk | hk | hk <;> simp [marshalSingular, hval, hk]
  · rcases hv with ⟨i, rfl⟩ | ⟨u, rfl⟩
    · exact Or.inl ⟨i, rfl, rfl⟩
    · exact Or.inr ⟨u, rfl, rfl⟩

theorem C6_witness :
    (fd64W.kind = .int64 ∨ fd64W.kind = .sint64 ∨ fd64W.kind = .uint64 ∨
      fd64W.kind = .sfixed64 ∨ fd64W.kind = .fixed64) ∧
    marshalSingular {} ⟨false⟩ 3 (.vint 9007199254740993) fd64W
        { indent := "", tokens := [] } =
      ({ indent := "", tokens := [Token.str "9007199254740993"] }, none) := by
  refine ⟨Or.inl (by decide), ?_⟩
  have h := C6_int64_as_string {} ⟨false⟩ 2 (.vint 9007199254740993) fd64W
    { indent := "", tokens := [] } (Or.inl (by decide)) (Or.inl ⟨_, rfl⟩)
  rw [h.1]
  decide

/-- C7: For every enum-kinded field value: it renders as the symbolic name
string unless `UseEnumNumbers` is set OR the numeric value has no matching
symbolic name (in which case it renders as the bare number, not an error);
a field of the sentinel `google.protobuf.NullValue` enum type always
renders as JSON null regardless of mode. -/
theorem C7_enum_rendering
    (o : MarshalOptions) (fl : Flags) (fuel : Nat) (n : Int)
    (fd : FieldDescriptor) (ed : EnumDescriptor) (enc : Encoder)
    (hk : fd.kind = .enum) (hed : fd.enum = some ed) :
    (ed.fullName = "google.protobuf.NullValue" →
      marshalSingular o fl (fuel + 1) (.venum n) fd enc = (enc.WriteNull, none)) ∧
    (ed.fullName ≠ "google.protobuf.NullValue" →
      ((o.UseEnumNumbers = true ∨
          ed.values.find? (fun vd => vd.number == n) = none) →
        marshalSingular o fl (fuel + 1) (.venum n) fd enc =
          (enc.WriteInt n, none)) ∧
      (∀ vd, o.UseEnumNumbers = false →
        ed.values.find? (fun vd => vd.number == n) = some vd →
        marshalSingular o fl (fuel + 1) (.venum n) fd enc =
          (enc.WriteString vd.name, none))) := by
  constructor
  · intro hnull
    simp [marshalSingular, hk, hed, Val.IsValid, hnull]
  · intro hnull
    constructor
    · rintro (hnum | hfind)
      · cases hfind : ed.values.find? (fun vd => vd.number == n) with
        | some vd => simp [marshalSingular, hk, hed, Val.IsValid, Val.getEnum, hnull, hfind, hnum]
        | none => simp [marshalSingular, hk, hed, Val.IsValid, Val.getEnum, hnull, hfind]
      · simp [marshalSingular, hk, hed, Val.IsValid, Val.getEnum, hnull, hfind]
    · intro vd hnum hfind
      simp [marshalSingular, hk, hed, Val.IsValid, Val.getEnum, hnull, hfind, hnum]

theorem C7_witness :
    fdEnumW.kind = .enum ∧ fdEnumW.enum = some edW ∧
    edW.values.find? (fun vd => vd.number == (7 : Int)) = none ∧
    marshalSingular {} ⟨false⟩ 3 (.venum 7) fdEnumW
        { indent := "", tokens := [] } =
      ({ indent := "", tokens := [Token.int 7] }, none) ∧
    marshalSingular {} ⟨false⟩ 3 (.venum 0) fdNullEnumW
        { indent := "", tokens := [] } =
      ({ indent := "", tokens := [Token.null] }, none) := by
  refine ⟨by decide, by decide, by decide, ?_, ?_⟩
  · have h := (C7_enum_rendering {} ⟨false⟩ 2 7 fdEnumW edW
      { indent := "", tokens := [] } (by decide) (by decide)).2
      (by decide) |>.1 (Or.inr (by decide))
    rw [h]
    decide
  · have h := (C7_enum_rendering {} ⟨false⟩ 2 0 fdNullEnumW edNullW
      { indent := "", tokens := [] } (by decide) (by decide)).1 (by decide)
    rw [h]
    decide

/-- C8 (counterexample): with `UseProtoNames` unset, a populated group-kind
field is emitted under its JSON-mapped name (`"mygroup"`), not under the
nested message type's own name (`"MyGroup"`) — refuting the claim that the
nested message's name is used in either mode. -/
theorem C8_counterexample :
    fdGroupW.kind = Kind.group ∧
    ({} : MarshalOptions).UseProtoNames = false ∧
    fdGroupW.message.map MessageDescriptor.name = some "MyGroup" ∧
    fieldEmitName {} fdGroupW = "mygroup" ∧
    (marshalFieldLoop {} ⟨false⟩ 8 mGroupW [fdGroupW]
        { indent := "", tokens := [] }).1.tokens =
      [Token.name "mygroup", Token.startObject, Token.endObject] ∧
    ("mygroup" : String) ≠ "MyGroup" := by
  decide

/-- C8 (amended): the emitted field name is the JSON-mapped name by default
and the declared (proto) name when `UseProtoNames` is set; only in
`UseProtoNames` mode is the declared name of a group-kind field replaced by
the nested message type's own name.  A populated field is emitted under
exactly this name. -/
theorem C8_amended_field_name
    (o : MarshalOptions) (fl : Flags) (fuel : Nat) (m : Msg)
    (fd : FieldDescriptor) (rest : List FieldDescriptor) (enc : Encoder)
    (d : MessageDescriptor) :
    (o.UseProtoNames = false → fieldEmitName o fd = fd.jsonName) ∧
    (o.UseProtoNames = true → fd.kind = .group → fd.message = some d →
      fieldEmitName o fd = d.name) ∧
    (o.UseProtoNames = true → fd.kind ≠ .group →
      fieldEmitName o fd = fd.name) ∧
    (m.Has fd = true →
      ∃ tail, (marshalFieldLoop o fl (fuel + 1) m (fd :: rest) enc).1.tokens =
        enc.tokens ++ Token.name (fieldEmitName o fd) :: tail) := by
  refine ⟨?_, ?_, ?_, ?_⟩
  · intro hpn
    simp [fieldEmitName, hpn]
  · intro hpn hk hmsg
    simp [fieldEmitName, hpn, hk, hmsg]
  · intro hpn hk
    simp [fieldEmitName, hpn, hk]
  · intro hhas
    have hskip :
        (!(m.Has fd) && (!o.EmitUnpopulated || fd.containingOneof)) = false := by
      simp [hhas]
    obtain ⟨outV, errV, hV⟩ :=
      (marshalFrame o fl fuel).2.2.2.1 (substitutedVal m fd) fd
    cases errV with
    | some e =>
      refine ⟨outV, ?_⟩
      simp [marshalFieldLoop, hskip, hV, Encoder.WriteName, Encoder.push]
    | none =>
      obtain ⟨outR, errR, hR⟩ := (marshalFrame o fl fuel).2.2.1 m rest
      refine ⟨outV ++ outR, ?_⟩
      simp [marshalFieldLoop, hskip, hV, hR, Encoder.WriteName, Encoder.push]

theorem C8_amended_witness :
    mGroupW.Has fdGroupW = true ∧
    fieldEmitName { UseProtoNames := true } fdGroupW = "MyGroup" ∧
    fieldEmitName {} fdGroupW = "mygroup" ∧
    (∃ tail, (marshalFieldLoop { UseProtoNames := true } ⟨false⟩ 8 mGroupW
        [fdGroupW] { indent := "", tokens := [] }).1.tokens =
      ([] : List Token) ++ Token.name (fieldEmitName { UseProtoNames := true }
        fdGroupW) :: tail) := by
  have h := C8_amended_field_name { UseProtoNames := true } ⟨false⟩ 7 mGroupW
    fdGroupW [] { indent := "", tokens := [] } dGroupW
  have h0 := C8_amended_field_name ({} : MarshalOptions) ⟨false⟩ 7 mGroupW
    fdGroupW [] { indent := "", tokens := [] } dGroupW
  refine ⟨by decide, ?_, h0.1 rfl, h.2.2.2 (by decide)⟩
  rw [h.2.1 rfl (by decide) rfl]
  decide

theorem noMsgSetErr (o : MarshalOptions) (fl : Flags)
    (hleg : fl.ProtoLegacy = true) : ∀ fuel : Nat,
    (∀ m enc, (marshalMessage o fl fuel m enc).2 ≠
      some (.errorString "no support for proto1 MessageSets")) ∧
    (∀ m enc, (marshalFields o fl fuel m enc).2 ≠
      some (.errorString "no support for proto1 MessageSets")) ∧
    (∀ m fds enc, (marshalFieldLoop o fl fuel m fds enc).2 ≠
      some (.errorString "no support for proto1 MessageSets")) ∧
    (∀ v fd enc, (marshalValue o fl fuel v fd enc).2 ≠
      some (.errorString "no support for proto1 MessageSets")) ∧
    (∀ v fd enc, (marshalSingular o fl fuel v fd enc).2 ≠
      some (.errorString "no support for proto1 MessageSets")) ∧
    (∀ vs fd enc, (marshalList o fl fuel vs fd enc).2 ≠
      some (.errorString "no support for proto1 MessageSets")) ∧
    (∀ vs fd enc, (marshalListLoop o fl fuel vs fd enc).2 ≠
      some (.errorString "no support for proto1 MessageSets")) ∧
    (∀ es fd enc, (marshalMap o fl fuel es fd enc).2 ≠
      some (.errorString "no support for proto1 MessageSets")) ∧
    (∀ es fd enc, (marshalMapLoop o fl fuel es fd enc).2 ≠
      some (.errorString "no support for proto1 MessageSets")) ∧
    (∀ m enc, (marshalExtensions o fl fuel m enc).2 ≠
      some (.errorString "no support for proto1 MessageSets")) ∧
    (∀ es enc, (marshalExtLoop o fl fuel es enc).2 ≠
      some (.errorString "no support for proto1 MessageSets")) := by
  intro fuel
  induction fuel with
  | zero =>
    refine ⟨fun m enc => by simp [marshalMessage],
      fun m enc => by simp [marshalFields],
      fun m fds enc => by simp [marshalFieldLoop],
      fun v fd enc => by simp [marshalValue],
      fun v fd enc => by simp [marshalSingular],
      fun vs fd enc => by simp [marshalList],
      fun vs fd enc => by simp [marshalListLoop],
      fun es fd enc => by simp [marshalMap],
      fun es fd enc => by simp [marshalMapLoop],
      fun m enc => by simp [marshalExtensions],
      fun es enc => by simp [marshalExtLoop]⟩
  | succ fuel ih =>
    obtain ⟨ihMsg, ihFlds, ihFL, ihVal, ihSing, ihLst, ihLL, ihMp, ihML,
      ihExt, ihEL⟩ := ih
    refine ⟨?_, ?_, ?_, ?_, ?_, ?_, ?_, ?_, ?_, ?_, ?_⟩
    · intro m enc
      by_cases hc : isCustomType m.desc.fullName
      · simp [marshalMessage, hc, marshalCustomType]
      · simp only [marshalMessage, hc, Bool.false_eq_true, if_false]
        exact ihFlds m enc.StartObject
    · intro m enc
      have hcond : (!fl.ProtoLegacy && m.desc.isMessageSet) = false := by
        simp [hleg]
      cases hres : marshalFieldLoop o fl fuel m m.desc.fields enc with
      | mk enc2 err2 =>
        cases err2 with
        | some e =>
          have hne := ihFL m m.desc.fields enc
          rw [hres] at hne
          simp only [marshalFields, hcond, Bool.false_eq_true, if_false, hres]
          simpa using hne
        | none =>
          simp only [marshalFields, hcond, Bool.false_eq_true, if_false, hres]
          exact ihExt m enc2
    · intro m fds enc
      cases fds with
      | nil => simp [marshalFieldLoop]
      | cons fd rest =>
        by_cases hskip :
          (!(m.Has fd) && (!o.EmitUnpopulated || fd.containingOneof)) = true
        · simp only [marshalFieldLoop, hskip, if_true]
          exact ihFL m rest enc
        · cases hres : marshalValue o fl fuel (substitutedVal m fd) fd
              (enc.WriteName (fieldEmitName o fd)) with
          | mk enc2 err2 =>
            cases err2 with
            | some e =>
              have hne := ihVal (substitutedVal m fd) fd
                (enc.WriteName (fieldEmitName o fd))
              rw [hres] at hne
              simp only [marshalFieldLoop, hskip, if_false, hres]
              simpa using hne
            | none =>
              simp only [marshalFieldLoop, hskip, if_false, hres]
              exact ihFL m rest enc2
    · intro v fd enc
      by_cases hl : fd.IsList
      · simp only [marshalValue, hl, if_true]
        exact ihLst v.getList fd enc
      · by_cases hm : fd.IsMap
        · simp only [marshalValue, hl, hm, if_true, if_false,
            Bool.false_eq_true]
          exact ihMp v.getMap fd enc
        · simp only [marshalValue, hl, hm, if_false, Bool.false_eq_true]
          exact ihSing v fd enc
    · intro v fd enc
      by_cases hval : v.IsValid
      · cases hk : fd.kind with
        | enum =>
          by_cases hnull :
            ((fd.enum.getD { fullName := "", values := [] }).fullName ==
              "google.protobuf.NullValue") = true
          · simp [marshalSingular, hval, hk, hnull]
          · cases hfind : (fd.enum.getD { fullName := "", values := [] }).values.find?
                (fun vd => vd.number == v.getEnum) with
            | some vd =>
              by_cases hnum : o.UseEnumNumbers
              · simp [marshalSingular, hval, hk, hnull, hfind, hnum]
              · simp [marshalSingular, hval, hk, hnull, hfind, hnum]
            | none => simp [marshalSingular, hval, hk, hnull, hfind]
        | message =>
          simp only [marshalSingular, hval, hk]
          simp only [Bool.not_true, Bool.false_eq_true, if_false]
          exact ihMsg v.getMsg enc
        | group =>
          simp only [marshalSingular, hval, hk]
          simp only [Bool.not_true, Bool.false_eq_true, if_false]
          exact ihMsg v.getMsg enc
        | _ => simp [marshalSingular, hval, hk]
      · simp [marshalSingular, hval]
    · intro vs fd enc
      cases hres : marshalListLoop o fl fuel vs fd enc.StartArray with
      | mk enc2 err2 =>
        have hne := ihLL vs fd enc.StartArray
        rw [hres] at hne
        simp only [marshalList, hres]
        simpa using hne
    · intro vs fd enc
      cases vs with
      | nil => simp [marshalListLoop]
      | cons v rest =>
        cases hres : marshalSingular o fl fuel v fd enc with
        | mk enc2 err2 =>
          cases err2 with
          | some e =>
            have hne := ihSing v fd enc
            rw [hres] at hne
            simp only [marshalListLoop, hres]
            simpa using hne
          | none =>
            simp only [marshalListLoop, hres]
            exact ihLL rest fd enc2
    · intro es fd enc
      cases hres : marshalMapLoop o fl fuel
          (sortMap (fd.mapKey.getD fd).kind es) fd enc.StartObject with
      | mk enc2 err2 =>
        have hne := ihML (sortMap (fd.mapKey.getD fd).kind es) fd enc.StartObject
        rw [hres] at hne
        simp only [marshalMap, hres]
        simpa using hne
    · intro es fd enc
      cases es with
      | nil => simp [marshalMapLoop]
      | cons e rest =>
        cases hres : marshalSingular o fl fuel e.2 (fd.mapValue.getD fd)
            (enc.WriteName e.1.keyString) with
        | mk enc2 err2 =>
          cases err2 with
          | some err =>
            have hne := ihSing e.2 (fd.mapValue.getD fd)
              (enc.WriteName e.1.keyString)
            rw [hres] at hne
            simp only [marshalMapLoop, hres]
            simpa using hne
          | none =>
            simp only [marshalMapLoop, hres]
            exact ihML rest fd enc2
    · intro m enc
      simp only [marshalExtensions]
      exact ihEL (sortSlice extLess (extEntries m.pop)) enc
    · intro es enc
      cases es with
      | nil => simp [marshalExtLoop]
      | cons e rest =>
        cases hres : marshalValue o fl fuel e.value e.desc
            (enc.WriteName ("[" ++ e.key ++ "]")) with
        | mk enc2 err2 =>
          cases err2 with
          | some err =>
            have hne := ihVal e.value e.desc (enc.WriteName ("[" ++ e.key ++ "]"))
            rw [hres] at hne
            simp only [marshalExtLoop, hres]
            simpa using hne
          | none =>
            simp only [marshalExtLoop, hres]
            exact ihEL rest enc2

/-- C9: A message whose descriptor is a legacy message-set construct makes
encoding fail with the error "no support for proto1 MessageSets" unless the
legacy-compatibility flag is enabled; with the flag enabled no encoding is
ever rejected on this ground. -/
theorem C9_messageset_rejected_unless_legacy
    (o : MarshalOptions) (fuel : Nat) (m : Msg)
    (hind : (o.Indent.toList.all fun c => c = ' ' || c = '\t') = true)
    (hms : m.desc.isMessageSet = true)
    (hnc : isCustomType m.desc.fullName = false) :
    o.Marshal ⟨false⟩ (fuel + 2) m =
      (none, some (Err.errorString "no support for proto1 MessageSets")) ∧
    (∀ fl : Flags, fl.ProtoLegacy = true → ∀ (fuel' : Nat) (m' : Msg),
      (o.Marshal fl fuel' m').2 ≠
        some (Err.errorString "no support for proto1 MessageSets")) := by
  have henc : NewEncoder o.Indent = .ok { indent := o.Indent, tokens := [] } := by
    unfold NewEncoder
    rw [if_pos hind]
  constructor
  · have hbody : (marshalMessage o ⟨false⟩ (fuel + 2) m
        { indent := o.Indent, tokens := [] }).2 =
        some (.errorString "no support for proto1 MessageSets") := by
      show (marshalMessage o ⟨false⟩ (fuel + 1 + 1) m
        { indent := o.Indent, tokens := [] }).2 = _
      simp [marshalMessage, hnc, marshalFields, hms]
    simp [MarshalOptions.Marshal, henc, hbody]
  · intro fl hleg fuel' m'
    unfold MarshalOptions.Marshal
    cases hne : NewEncoder o.Indent with
    | error e =>
      have he : e = .errorString
          "indent may only be composed of space or tab characters" := by
        unfold NewEncoder at hne
        split at hne
        · cases hne
        · cases hne
      simp [he]
    | ok enc =>
      have hnms := (noMsgSetErr o fl hleg fuel').1 m' enc
      cases hr : marshalMessage o fl fuel' m' enc with
      | mk enc2 err2 =>
        rw [hr] at hnms
        cases err2 with
        | some e =>
          simp only [hr]
          simpa using hnms
        | none =>
          by_cases hap : o.AllowPartial
          · simp [hr, hap]
          · simp only [hr, hap, Bool.false_eq_true, if_false, IsInitialized]
            split <;> simp

theorem C9_witness :
    mMsgSetW.desc.isMessageSet = true ∧
    isCustomType mMsgSetW.desc.fullName = false ∧
    MarshalOptions.Marshal {} ⟨false⟩ 5 mMsgSetW =
      (none, some (Err.errorString "no support for proto1 MessageSets")) ∧
    (MarshalOptions.Marshal {} ⟨true⟩ 5 mMsgSetW).2 ≠
      some (Err.errorString "no support for proto1 MessageSets") := by
  have h := C9_messageset_rejected_unless_legacy {} 3 mMsgSetW (by decide)
    (by decide) (by decide)
  exact ⟨by decide, by decide, h.1, h.2 ⟨true⟩ rfl 5 mMsgSetW⟩

theorem find_none_of_not_has {m : Msg} {fd : FieldDescriptor}
    (h : m.Has fd = false) :
    m.pop.find? (fun e => fdMatch e.1 fd) = none := by
  unfold Msg.Has at h
  cases hf : m.pop.find? (fun e => fdMatch e.1 fd) with
  | none => rfl
  | some e => rw [hf] at h; cases h

/-- C3: For an unpopulated declared field: it is emitted only when
`EmitUnpopulated` is set and the field is not a oneof member; when emitted,
the substituted value is JSON null for (a) a proto2 scalar with a valid
declared default and (b) a singular (non-repeated) message-typed field,
while true proto3 scalars render their zero value, empty repeated fields
render `[]`, and empty maps render `{}`. -/
theorem C3_unpopulated_emission_policy
    (o : MarshalOptions) (fl : Flags) (fuel : Nat) (m : Msg)
    (fd : FieldDescriptor) (enc : Encoder)
    (hunpop : m.Has fd = false) :
    ((o.EmitUnpopulated = false ∨ fd.containingOneof = true) →
      marshalFieldLoop o fl (fuel + 4) m [fd] enc = (enc, none)) ∧
    (o.EmitUnpopulated = true → fd.containingOneof = false →
      ((marshalFieldLoop o fl (fuel + 4) m [fd] enc).1.tokens =
        enc.tokens ++ Token.name (fieldEmitName o fd) ::
          valueTokens o fl (fuel + 3) (substitutedVal m fd) fd) ∧
      (((fd.ver = .proto2 ∧ fd.defaultValid = true) ∨
          (fd.cardinality ≠ .repeated ∧ fd.message.isSome = true)) →
        substitutedVal m fd = Val.invalid) ∧
      (fd.IsList = false → fd.IsMap = false →
        valueTokens o fl (fuel + 3) Val.invalid fd = [Token.null]) ∧
      (fd.ver = .proto3 → fd.message = none → fd.IsList = false →
        fd.IsMap = false →
        (fd.kind = .bool →
          valueTokens o fl (fuel + 3) (substitutedVal m fd) fd =
            [Token.bool false]) ∧
        (fd.kind = .string →
          valueTokens o fl (fuel + 3) (substitutedVal m fd) fd =
            [Token.str ""]) ∧
        ((fd.kind = .int32 ∨ fd.kind = .sint32 ∨ fd.kind = .sfixed32) →
          valueTokens o fl (fuel + 3) (substitutedVal m fd) fd =
            [Token.int 0]) ∧
        ((fd.kind = .uint32 ∨ fd.kind = .fixed32) →
          valueTokens o fl (fuel + 3) (substitutedVal m fd) fd =
            [Token.uint 0]) ∧
        ((fd.kind = .int64 ∨ fd.kind = .sint64 ∨ fd.kind = .uint64 ∨
            fd.kind = .sfixed64 ∨ fd.kind = .fixed64) →
          valueTokens o fl (fuel + 3) (substitutedVal m fd) fd =
            [Token.str "0"]) ∧
        (fd.kind = .bytes →
          valueTokens o fl (fuel + 3) (substitutedVal m fd) fd =
            [Token.str ""])) ∧
      (fd.IsList = true → (fd.ver == ProtoVer.proto2 && fd.defaultValid) = false →
        valueTokens o fl (fuel + 3) (substitutedVal m fd) fd =
          [Token.startArray, Token.endArray]) ∧
      (fd.IsMap = true → (fd.ver == ProtoVer.proto2 && fd.defaultValid) = false →
        valueTokens o fl (fuel + 3) (substitutedVal m fd) fd =
          [Token.startObject, Token.endObject])) := by
  have hfind := find_none_of_not_has hunpop
  constructor
  · intro hcase
    have hskip :
        (!(m.Has fd) && (!o.EmitUnpopulated || fd.containingOneof)) = true := by
      rcases hcase with h | h <;> simp [hunpop, h]
    simp [marshalFieldLoop, hskip]
  · intro hemit honeof
    have hskip :
        (!(m.Has fd) && (!o.EmitUnpopulated || fd.containingOneof)) = false := by
      simp [hunpop, hemit, honeof]
    refine ⟨?_, ?_, ?_, ?_, ?_, ?_⟩
    · obtain ⟨outV, errV, hV⟩ :=
        (marshalFrame o fl (fuel + 3)).2.2.2.1 (substitutedVal m fd) fd
      have houtV : valueTokens o fl (fuel + 3) (substitutedVal m fd) fd = outV := by
        simp [valueTokens, hV]
      cases errV with
      | some e =>
        simp [marshalFieldLoop, hskip, hV, houtV, Encoder.WriteName, Encoder.push]
      | none =>
        simp [marshalFieldLoop, hskip, hV, houtV, Encoder.WriteName, Encoder.push]
    · rintro (⟨hv, hd⟩ | ⟨hc, hm⟩)
      · simp [substitutedVal, hunpop, hv, hd]
      · have hc' : (fd.cardinality != Cardinality.repeated) = true := by
          simp [bne_iff_ne, hc]
        simp [substitutedVal, hunpop, hc', hm]
    · intro hlist hmap
      simp [valueTokens, marshalValue, hlist, hmap, marshalSingular,
        Val.IsValid, Encoder.WriteNull, Encoder.push]
    · intro hver hmsg hlist hmap
      have hsub : substitutedVal m fd = fd.defaultGet := by
        simp [substitutedVal, hunpop, hver, hmsg, Msg.Get, hfind]
      refine ⟨?_, ?_, ?_, ?_, ?_, ?_⟩
      · intro hk
        simp [hsub, valueTokens, marshalValue, hlist, hmap,
          FieldDescriptor.defaultGet, hk, marshalSingular, Val.IsValid,
          Val.getBool, Encoder.WriteBool, Encoder.push]
      · intro hk
        simp [hsub, valueTokens, marshalValue, hlist, hmap,
          FieldDescriptor.defaultGet, hk, marshalSingular, Val.IsValid,
          Val.valString, Encoder.WriteString, Encoder.push]
      · rintro (hk | hk | hk) <;>
          simp [hsub, valueTokens, marshalValue, hlist, hmap,
            FieldDescriptor.defaultGet, hk, marshalSingular, Val.IsValid,
            Val.getInt, Encoder.WriteInt, Encoder.push]
      · rintro (hk | hk) <;>
          simp [hsub, valueTokens, marshalValue, hlist, hmap,
            FieldDescriptor.defaultGet, hk, marshalSingular, Val.IsValid,
            Val.getUint, Encoder.WriteUint, Encoder.push]
      · rintro (hk | hk | hk | hk | hk) <;>
          simp [hsub, valueTokens, marshalValue, hlist, hmap,
            FieldDescriptor.defaultGet, hk, marshalSingular, Val.IsValid,
            Val.valString, Encoder.WriteString, Encoder.push] <;> rfl
      · intro hk
        simp [hsub, valueTokens, marshalValue, hlist, hmap,
          FieldDescriptor.defaultGet, hk, marshalSingular, Val.IsValid,
          Val.getBytes, base64Encode, Encoder.WriteString, Encoder.push]
    · intro hlist hp2
      have hrep : fd.cardinality = .repeated := by
        have h := hlist
        unfold FieldDescriptor.IsList at h
        rcases Bool.and_eq_true_iff.mp h with ⟨h1, _⟩
        exact eq_of_beq h1
      have hc' : (fd.cardinality != Cardinality.repeated) = false := by
        simp [hrep]
      have hsub : substitutedVal m fd = fd.defaultGet := by
        simp [substitutedVal, hunpop, hp2, hc', Msg.Get, hfind]
      simp [hsub, valueTokens, marshalValue, hlist, FieldDescriptor.defaultGet,
        marshalList, marshalListLoop, Val.getList, Encoder.StartArray,
        Encoder.EndArray, Encoder.push]
    · intro hmap hp2
      have hrep : fd.cardinality = .repeated := by
        have h := hmap
        unfold FieldDescriptor.IsMap at h
        rcases Bool.and_eq_true_iff.mp (Bool.and_eq_true_iff.mp h).1 with ⟨h1, _⟩
        exact eq_of_beq h1
      have hc' : (fd.cardinality != Cardinality.repeated) = false := by
        simp [hrep]
      have hlist : fd.IsList = false := by
        simp [FieldDescriptor.IsList, hmap]
      have hsub : substitutedVal m fd = fd.defaultGet := by
        simp [substitutedVal, hunpop, hp2, hc', Msg.Get, hfind]
      simp [hsub, valueTokens, marshalValue, hlist, hmap,
        FieldDescriptor.defaultGet, marshalMap, marshalMapLoop, sortMap,
        sortSlice, Val.getMap, Encoder.StartObject, Encoder.EndObject,
        Encoder.push]

theorem C3_witness :
    mEmptyW.Has fd64W = false ∧
    marshalFieldLoop {} ⟨false⟩ 9 mEmptyW [fd64W]
        { indent := "", tokens := [] } = ({ indent := "", tokens := [] }, none) ∧
    (marshalFieldLoop { EmitUnpopulated := true } ⟨false⟩ 9 mEmptyW [fd64W]
        { indent := "", tokens := [] }).1.tokens =
      [Token.name "n", Token.str "0"] := by
  refine ⟨by decide, ?_, by decide⟩
  exact (C3_unpopulated_emission_policy {} ⟨false⟩ 5 mEmptyW fd64W
    { indent := "", tokens := [] } (by decide)).1 (Or.inl rfl)

theorem mapKeyLess_asym (kk : Kind) :
    ∀ a b : MapKey × Val,
      mapKeyLess kk a b = true → mapKeyLess kk b a = false := by
  intro a b h
  cases kk <;> simp [mapKeyLess] at h ⊢ <;>
    first
    | omega
    | exact le_of_lt h
    | exact lt_asymm h

theorem mapKeyLess_trans (kk : Kind) :
    ∀ a b c : MapKey × Val, mapKeyLess kk a b = true →
      mapKeyLess kk b c = true → mapKeyLess kk a c = true := by
  intro a b c h₁ h₂
  cases kk <;> simp [mapKeyLess] at h₁ h₂ ⊢ <;>
    first
    | omega
    | exact lt_trans h₁ h₂
    | exact le_of_lt (lt_trans h₁ h₂)

theorem mapKeyLess_total (kk : Kind) (a b : MapKey × Val)
    (hka : kindKeyMatch kk a.1 = true) (hkb : kindKeyMatch kk b.1 = true)
    (hne : a.1 ≠ b.1) :
    mapKeyLess kk a b = true ∨ mapKeyLess kk b a = true := by
  obtain ⟨k₁, v₁⟩ := a
  obtain ⟨k₂, v₂⟩ := b
  simp only at hka hkb hne ⊢
  cases kk <;> cases k₁ <;> cases k₂ <;>
    simp_all [kindKeyMatch, mapKeyLess, MapKey.keyInt, MapKey.keyUint,
      MapKey.keyString] <;>
    first
    | omega
    | exact lt_or_gt_of_ne hne
    | exact fun hcon => hne (congrArg String.mk hcon)
    | (rename_i x y
       cases x <;> cases y <;> simp_all <;> decide)

theorem mapLoopEmission (o : MarshalOptions) (fl : Flags) :
    ∀ (fuel : Nat) (es : List (MapKey × Val)) (fd : FieldDescriptor)
      (enc : Encoder),
    (marshalMapLoop o fl fuel es fd enc).2 = none →
    (marshalMapLoop o fl fuel es fd enc).1.tokens =
      enc.tokens ++ mapEmission o fl fuel es fd := by
  intro fuel
  induction fuel with
  | zero =>
    intro es fd enc h
    simp [marshalMapLoop] at h
  | succ fuel ih =>
    intro es fd enc h
    cases es with
    | nil => simp [marshalMapLoop, mapEmission]
    | cons e rest =>
      obtain ⟨outS, errS, hS⟩ :=
        (marshalFrame o fl fuel).2.2.2.2.1 e.2 (fd.mapValue.getD fd)
      have houtS : singularTokens o fl fuel e.2 (fd.mapValue.getD fd) = outS := by
        simp [singularTokens, hS]
      cases errS with
      | some err =>
        rw [show marshalMapLoop o fl (fuel + 1) (e :: rest) fd enc =
          ({ indent := enc.indent,
             tokens := (enc.tokens ++ [Token.name e.1.keyString]) ++ outS },
            some err) from by
          simp [marshalMapLoop, hS, Encoder.WriteName, Encoder.push]] at h
        cases h
      | none =>
        have heq : marshalMapLoop o fl (fuel + 1) (e :: rest) fd enc =
            marshalMapLoop o fl fuel rest fd
              { indent := enc.indent,
                tokens := (enc.tokens ++ [Token.name e.1.keyString]) ++ outS } := by
          simp [marshalMapLoop, hS, Encoder.WriteName, Encoder.push]
        rw [heq] at h ⊢
        rw [ih rest fd _ h]
        simp [mapEmission, houtS]
      
theorem extLoopEmission (o : MarshalOptions) (fl : Flags) :
    ∀ (fuel : Nat) (es : List ExtEntry) (enc : Encoder),
    (marshalExtLoop o fl fuel es enc).2 = none →
    (marshalExtLoop o fl fuel es enc).1.tokens =
      enc.tokens ++ extEmission o fl fuel es := by
  intro fuel
  induction fuel with
  | zero =>
    intro es enc h
    simp [marshalExtLoop] at h
  | succ fuel ih =>
    intro es enc h
    cases es with
    | nil => simp [marshalExtLoop, extEmission]
    | cons e rest =>
      obtain ⟨outV, errV, hV⟩ :=
        (marshalFrame o fl fuel).2.2.2.1 e.value e.desc
      have houtV : valueTokens o fl fuel e.value e.desc = outV := by
        simp [valueTokens, hV]
      cases errV with
      | some err =>
        rw [show marshalExtLoop o fl (fuel + 1) (e :: rest) enc =
          ({ indent := enc.indent,
             tokens := (enc.tokens ++ [Token.name ("[" ++ e.key ++ "]")]) ++ outV },
            some err) from by
          simp [marshalExtLoop, hV, Encoder.WriteName, Encoder.push]] at h
        cases h
      | none =>
        have heq : marshalExtLoop o fl (fuel + 1) (e :: rest) enc =
            marshalExtLoop o fl fuel rest
              { indent := enc.indent,
                tokens := (enc.tokens ++ [Token.name ("[" ++ e.key ++ "]")]) ++ outV } := by
          simp [marshalExtLoop, hV, Encoder.WriteName, Encoder.push]
        rw [heq] at h ⊢
        rw [ih rest _ h]
        simp [extEmission, houtV]

/-- C4: For every map field, the entries are emitted in strictly ascending
key order — numeric ascending comparison (signed for signed integer key
kinds, unsigned for unsigned ones), lexicographic comparison for string
keys — independent of the map's iteration or insertion order; each entry is
emitted as the key's canonical string form as name followed by the
transcoded value. -/
theorem C4_map_entries_sorted
    (o : MarshalOptions) (fl : Flags) (fuel : Nat)
    (fd kfd : FieldDescriptor) (entries : List (MapKey × Val)) (enc : Encoder)
    (hkfd : fd.mapKey = some kfd)
    (hmatch : ∀ e ∈ entries, kindKeyMatch kfd.kind e.1 = true)
    (hdist : entries.Pairwise fun a b => a.1 ≠ b.1) :
    (sortMap kfd.kind entries).Perm entries ∧
    (sortMap kfd.kind entries).Pairwise
      (fun a b => mapKeyLess kfd.kind a b = true) ∧
    (∀ entries₂, entries₂.Perm entries →
      sortMap kfd.kind entries₂ = sortMap kfd.kind entries) ∧
    ((kfd.kind = .int32 ∨ kfd.kind = .sint32 ∨ kfd.kind = .sfixed32 ∨
        kfd.kind = .int64 ∨ kfd.kind = .sint64 ∨ kfd.kind = .sfixed64) →
      (sortMap kfd.kind entries).Pairwise
        fun a b => a.1.keyInt < b.1.keyInt) ∧
    ((kfd.kind = .uint32 ∨ kfd.kind = .fixed32 ∨ kfd.kind = .uint64 ∨
        kfd.kind = .fixed64) →
      (sortMap kfd.kind entries).Pairwise
        fun a b => a.1.keyUint < b.1.keyUint) ∧
    (kfd.kind = .string →
      (sortMap kfd.kind entries).Pairwise
        fun a b => a.1.keyString < b.1.keyString) ∧
    ((marshalMap o fl (fuel + 1) entries fd enc).2 = none →
      (marshalMap o fl (fuel + 1) entries fd enc).1.tokens =
        enc.tokens ++ Token.startObject ::
          (mapEmission o fl fuel (sortMap kfd.kind entries) fd ++
            [Token.endObject])) := by
  have hcmp : entries.Pairwise (fun x y =>
      mapKeyLess kfd.kind x y = true ∨ mapKeyLess kfd.kind y x = true) :=
    pairwise_imp_mem hdist fun a b ha hb hne =>
      mapKeyLess_total kfd.kind a b (hmatch a ha) (hmatch b hb) hne
  have hsorted := sortSlice_pairwise (mapKeyLess_asym kfd.kind)
    (mapKeyLess_trans kfd.kind) hcmp
  refine ⟨sortSlice_perm _ _, hsorted, ?_, ?_, ?_, ?_, ?_⟩
  · intro entries₂ hp
    exact sortSlice_eq_of_perm (mapKeyLess_asym kfd.kind)
      (mapKeyLess_trans kfd.kind) hp
      (hcmp.perm hp.symm fun {x y} h => h.symm)
  · intro hk
    refine hsorted.imp ?_
    intro a b h
    rcases hk with hk | hk | hk | hk | hk | hk <;>
      (rw [hk] at h; simpa [mapKeyLess] using h)
  · intro hk
    refine hsorted.imp ?_
    intro a b h
    rcases hk with hk | hk | hk | hk <;>
      (rw [hk] at h; simpa [mapKeyLess] using h)
  · intro hk
    refine hsorted.imp ?_
    intro a b h
    rw [hk] at h
    simpa [mapKeyLess] using h
  · intro h2
    have hgd : fd.mapKey.getD fd = kfd := by rw [hkfd]; rfl
    have hm : marshalMap o fl (fuel + 1) entries fd enc =
        ((marshalMapLoop o fl fuel (sortMap kfd.kind entries) fd
            enc.StartObject).1.EndObject,
          (marshalMapLoop o fl fuel (sortMap kfd.kind entries) fd
            enc.StartObject).2) := by
      simp [marshalMap, hgd]
    rw [hm] at h2 ⊢
    simp only [Encoder.EndObject, Encoder.push] at h2 ⊢
    rw [mapLoopEmission o fl fuel _ fd enc.StartObject h2]
    simp [Encoder.StartObject, Encoder.push]

theorem C4_witness :
    fdMapW.mapKey = some fdMapKeyW ∧
    (∀ e ∈ [((MapKey.kint 2 : MapKey), Val.vint 20),
        (MapKey.kint 1, Val.vint 10)], kindKeyMatch fdMapKeyW.kind e.1 = true) ∧
    sortMap fdMapKeyW.kind
        [(MapKey.kint 2, Val.vint 20), (MapKey.kint 1, Val.vint 10)] =
      [(MapKey.kint 1, Val.vint 10), (MapKey.kint 2, Val.vint 20)] ∧
    (marshalMap {} ⟨false⟩ 6
        [(MapKey.kint 2, Val.vint 20), (MapKey.kint 1, Val.vint 10)] fdMapW
        { indent := "", tokens := [] }).1.tokens =
      [Token.startObject, Token.name "1", Token.int 10, Token.name "2",
        Token.int 20, Token.endObject] ∧
    (marshalMap {} ⟨false⟩ 6
        [(MapKey.kint 2, Val.vint 20), (MapKey.kint 1, Val.vint 10)] fdMapW
        { indent := "", tokens := [] }).1.tokens =
      ([] : List Token) ++ Token.startObject ::
        (mapEmission {} ⟨false⟩ 5 (sortMap fdMapKeyW.kind
          [(MapKey.kint 2, Val.vint 20), (MapKey.kint 1, Val.vint 10)]) fdMapW ++
          [Token.endObject]) := by
  refine ⟨rfl, by decide, rfl, by decide, ?_⟩
  exact (C4_map_entries_sorted {} ⟨false⟩ 5 fdMapW fdMapKeyW
    [(MapKey.kint 2, Val.vint 20), (MapKey.kint 1, Val.vint 10)]
    { indent := "", tokens := [] } rfl (by decide) (by decide)).2.2.2.2.2.2
    (by decide)

theorem extLess_asym : ∀ a b : ExtEntry,
    extLess a b = true → extLess b a = false := by
  intro a b h
  simp [extLess] at h ⊢
  exact le_of_lt h

theorem extLess_trans : ∀ a b c : ExtEntry, extLess a b = true →
    extLess b c = true → extLess a c = true := by
  intro a b c h₁ h₂
  simp [extLess] at h₁ h₂ ⊢
  exact lt_trans h₁ h₂

/-- C5: For every message, all populated extension fields are emitted after
all declared fields, sorted lexicographically by their bracket-wrapped
fully qualified name; for a legacy message-set-style extension the parent
type's name is used in place of the extension field's own name. -/
theorem C5_extensions_after_fields_sorted
    (o : MarshalOptions) (fl : Flags) (fuel : Nat) (m : Msg) (enc : Encoder)
    (hms : (!fl.ProtoLegacy && m.desc.isMessageSet) = false)
    (hdist : (extEntries m.pop).Pairwise fun a b => a.key ≠ b.key) :
    (∀ e ∈ extEntries m.pop, e.desc.isExtension = true ∧
      e.key = (if e.desc.isMessageSetExt then nameParent e.desc.fullName
               else e.desc.fullName)) ∧
    (∀ fd v, (fd, v) ∈ m.pop → fd.isExtension = true →
      ∃ e ∈ extEntries m.pop, e.desc = fd ∧ e.value = v) ∧
    (sortSlice extLess (extEntries m.pop)).Perm (extEntries m.pop) ∧
    (sortSlice extLess (extEntries m.pop)).Pairwise
      (fun a b => a.key < b.key) ∧
    (∀ es₂, es₂.Perm (extEntries m.pop) →
      sortSlice extLess es₂ = sortSlice extLess (extEntries m.pop)) ∧
    ((marshalFields o fl (fuel + 2) m enc).2 = none →
      (marshalFields o fl (fuel + 2) m enc).1.tokens =
        enc.tokens ++ fieldLoopTokens o fl (fuel + 1) m m.desc.fields ++
          extEmission o fl fuel (sortSlice extLess (extEntries m.pop))) := by
  have hcmp : (extEntries m.pop).Pairwise
      (fun x y => extLess x y = true ∨ extLess y x = true) := by
    refine pairwise_imp_mem hdist fun a b _ _ hne => ?_
    have hd : a.key.data ≠ b.key.data := fun h => hne (String.ext h)
    rcases lt_or_gt_of_ne hd with h | h
    · exact Or.inl (by simp [extLess, h])
    · exact Or.inr (by simp [extLess, h])
  have hsorted := sortSlice_pairwise extLess_asym extLess_trans hcmp
  refine ⟨?_, ?_, sortSlice_perm _ _, ?_, ?_, ?_⟩
  · intro e he
    rcases List.mem_filterMap.mp he with ⟨⟨fd, v⟩, _, hf⟩
    by_cases hx : fd.isExtension
    · simp only [extEntries, hx, if_true] at hf
      cases hf
      exact ⟨hx, rfl⟩
    · simp [hx] at hf
  · intro fd v hmem hx
    refine ⟨{ key := if fd.isMessageSetExt then nameParent fd.fullName
                else fd.fullName,
              value := v, desc := fd }, ?_, rfl, rfl⟩
    refine List.mem_filterMap.mpr ⟨(fd, v), hmem, ?_⟩
    simp [hx]
  · exact hsorted.imp fun {a b} h => by simpa [extLess] using h
  · intro es₂ hp
    exact sortSlice_eq_of_perm extLess_asym extLess_trans hp
      (hcmp.perm hp.symm fun {x y} h => h.symm)
  · intro h2
    obtain ⟨outL, errL, hL⟩ :=
      (marshalFrame o fl (fuel + 1)).2.2.1 m m.desc.fields
    have houtL : fieldLoopTokens o fl (fuel + 1) m m.desc.fields = outL := by
      simp [fieldLoopTokens, hL]
    cases errL with
    | some e =>
      rw [show (marshalFields o fl (fuel + 2) m enc).2 = some e from by
        simp [marshalFields, hms, hL]] at h2
      cases h2
    | none =>
      have hflds : marshalFields o fl (fuel + 2) m enc =
          marshalExtensions o fl (fuel + 1) m
            { indent := enc.indent, tokens := enc.tokens ++ outL } := by
        simp [marshalFields, hms, hL]
      rw [hflds] at h2 ⊢
      have hext : marshalExtensions o fl (fuel + 1) m
          { indent := enc.indent, tokens := enc.tokens ++ outL } =
          marshalExtLoop o fl fuel (sortSlice extLess (extEntries m.pop))
            { indent := enc.indent, tokens := enc.tokens ++ outL } := by
        simp [marshalExtensions]
      rw [hext] at h2 ⊢
      rw [extLoopEmission o fl fuel _ _ h2]
      simp [houtL, List.append_assoc]

theorem C5_witness :
    ((extEntries mExtW.pop).map ExtEntry.key) = ["ext.b", "ext.a"] ∧
    ((extEntries [(fdMsgSetExtW,
        Val.vmsg (.mk (.mk "Wrapper" "pkg.Wrapper" [] false false) []))]).map
      ExtEntry.key) = ["pkg.Wrapper"] ∧
    ((sortSlice extLess (extEntries mExtW.pop)).map ExtEntry.key) =
      ["ext.a", "ext.b"] ∧
    (marshalFields {} ⟨false⟩ 7 mExtW { indent := "", tokens := [] }).1.tokens =
      [Token.name "n", Token.str "5", Token.name "[ext.a]", Token.int 1,
        Token.name "[ext.b]", Token.int 2] ∧
    (marshalFields {} ⟨false⟩ 7 mExtW { indent := "", tokens := [] }).1.tokens =
      ([] : List Token) ++ fieldLoopTokens {} ⟨false⟩ 6 mExtW mExtW.desc.fields ++
        extEmission {} ⟨false⟩ 5 (sortSlice extLess (extEntries mExtW.pop)) := by
  refine ⟨by decide, by decide, by decide, by decide, ?_⟩
  exact (C5_extensions_after_fields_sorted {} ⟨false⟩ 5 mExtW
    { indent := "", tokens := [] } (by decide) (by decide)).2.2.2.2.2
    (by decide)

theorem fdMatch_refl (fd : FieldDescriptor) : fdMatch fd fd = true := by
  simp [fdMatch]

theorem fdMatch_trans {a b fd : FieldDescriptor}
    (h₁ : fdMatch a fd = true) (h₂ : fdMatch b fd = true) :
    fdMatch a b = true := by
  simp [fdMatch] at h₁ h₂ ⊢
  exact ⟨h₁.1.trans h₂.1.symm, h₁.2.trans h₂.2.symm⟩

theorem uniqueMatch {l : List (FieldDescriptor × Val)}
    (hl : l.Pairwise fun a b => fdMatch a.1 b.1 = false)
    {fd : FieldDescriptor} {a b : FieldDescriptor × Val}
    (ha : a ∈ l) (hb : b ∈ l)
    (hma : fdMatch a.1 fd = true) (hmb : fdMatch b.1 fd = true) : a = b := by
  induction l with
  | nil => cases ha
  | cons c cs ih =>
    rcases List.pairwise_cons.mp hl with ⟨hc, hcs⟩
    rcases List.mem_cons.mp ha with rfl | ha₁ <;>
      rcases List.mem_cons.mp hb with rfl | hb₁
    · rfl
    · exact absurd (fdMatch_trans hma hmb) (by simp [hc b hb₁])
    · exact absurd (fdMatch_trans hmb hma) (by simp [hc a ha₁])
    · exact ih hcs ha₁ hb₁

theorem uniqueMatchFd {l : List FieldDescriptor}
    (hl : l.Pairwise fun a b => fdMatch a b = false)
    {fd a b : FieldDescriptor} (ha : a ∈ l) (hb : b ∈ l)
    (hma : fdMatch a fd = true) (hmb : fdMatch b fd = true) : a = b := by
  induction l with
  | nil => cases ha
  | cons c cs ih =>
    rcases List.pairwise_cons.mp hl with ⟨hc, hcs⟩
    rcases List.mem_cons.mp ha with rfl | ha₁ <;>
      rcases List.mem_cons.mp hb with rfl | hb₁
    · rfl
    · exact absurd (fdMatch_trans hma hmb) (by simp [hc b hb₁])
    · exact absurd (fdMatch_trans hmb hma) (by simp [hc a ha₁])
    · exact ih hcs ha₁ hb₁

theorem forall₂_mem_left {R : α → β → Prop} {l : List α} {m : List β}
    (h : List.Forall₂ R l m) {a : α} (ha : a ∈ l) : ∃ b ∈ m, R a b := by
  induction h with
  | nil => cases ha
  | cons hR hrest ih =>
    rcases List.mem_cons.mp ha with rfl | ha₁
    · exact ⟨_, List.mem_cons_self _ _, hR⟩
    · rcases ih ha₁ with ⟨b, hb, hab⟩
      exact ⟨b, List.mem_cons_of_mem _ hb, hab⟩

theorem popRel_decomp : ∀ {l₁ l₂ : List (FieldDescriptor × Val)},
    PopRel l₁ l₂ →
    ∃ mid, List.Forall₂ (fun a b => a.1 = b.1 ∧ ValEquiv a.2 b.2) l₁ mid ∧
      mid.Perm l₂ := by
  intro l₁
  induction l₁ with
  | nil =>
    intro l₂ h
    cases h
    exact ⟨[], .nil, List.Perm.refl _⟩
  | cons e rest ih =>
    intro l₂ h
    cases h with
    | @ins v₁ v₂ l₁' l₂a l₂b fd hv hrest =>
      rcases ih hrest with ⟨mid, hpw, hperm⟩
      exact ⟨(fd, v₂) :: mid, .cons ⟨rfl, hv⟩ hpw,
        (hperm.cons _).trans List.perm_middle.symm⟩

theorem mapRel_decomp : ∀ {l₁ l₂ : List (MapKey × Val)}, MapRel l₁ l₂ →
    ∃ mid, List.Forall₂ (fun a b => a.1 = b.1 ∧ ValEquiv a.2 b.2) l₁ mid ∧
      mid.Perm l₂ := by
  intro l₁
  induction l₁ with
  | nil =>
    intro l₂ h
    cases h
    exact ⟨[], .nil, List.Perm.refl _⟩
  | cons e rest ih =>
    intro l₂ h
    cases h with
    | @ins v₁ v₂ l₁' l₂a l₂b k hv hrest =>
      rcases ih hrest with ⟨mid, hpw, hperm⟩
      exact ⟨(k, v₂) :: mid, .cons ⟨rfl, hv⟩ hpw,
        (hperm.cons _).trans List.perm_middle.symm⟩

theorem findRel {l₁ mid l₂ : List (FieldDescriptor × Val)}
    (hpw : List.Forall₂ (fun a b => a.1 = b.1 ∧ ValEquiv a.2 b.2) l₁ mid)
    (hperm : mid.Perm l₂)
    (hnd : l₁.Pairwise fun a b => fdMatch a.1 b.1 = false)
    (fd : FieldDescriptor) :
    (l₁.find? (fun e => fdMatch e.1 fd) = none ∧
      l₂.find? (fun e => fdMatch e.1 fd) = none) ∨
    (∃ e₁ e₂, l₁.find? (fun e => fdMatch e.1 fd) = some e₁ ∧
      l₂.find? (fun e => fdMatch e.1 fd) = some e₂ ∧
      e₁ ∈ l₁ ∧ e₂ ∈ l₂ ∧ e₁.1 = e₂.1 ∧ ValEquiv e₁.2 e₂.2) := by
  cases hf₁ : l₁.find? (fun e => fdMatch e.1 fd) with
  | none =>
    left
    refine ⟨rfl, List.find?_eq_none.mpr ?_⟩
    intro y hy
    have hymid : y ∈ mid := hperm.symm.subset hy
    rcases forall₂_mem_right hpw hymid with ⟨x, hx, hRxy⟩
    have hnone := List.find?_eq_none.mp hf₁ x hx
    simpa [← hRxy.1] using hnone
  | some e₁ =>
    right
    have he₁mem := List.mem_of_find?_eq_some hf₁
    have he₁p : fdMatch e₁.1 fd = true := by
      have := List.find?_some hf₁
      simpa using this
    rcases forall₂_mem_left hpw he₁mem with ⟨y, hymid, hRy⟩
    have hyl₂ : y ∈ l₂ := hperm.subset hymid
    have hyp : fdMatch y.1 fd = true := by rw [← hRy.1]; exact he₁p
    cases hf₂ : l₂.find? (fun e => fdMatch e.1 fd) with
    | none => exact absurd hyp (by simpa using List.find?_eq_none.mp hf₂ y hyl₂)
    | some e₂ =>
      have he₂mem := List.mem_of_find?_eq_some hf₂
      have he₂p : fdMatch e₂.1 fd = true := by
        have := List.find?_some hf₂
        simpa using this
      have he₂mid : e₂ ∈ mid := hperm.symm.subset he₂mem
      rcases forall₂_mem_right hpw he₂mid with ⟨a, hal₁, hRa⟩
      have hap : fdMatch a.1 fd = true := by rw [hRa.1]; exact he₂p
      have hae₁ : a = e₁ := uniqueMatch hnd hal₁ he₁mem hap he₁p
      rw [hae₁] at hRa
      exact ⟨e₁, e₂, rfl, rfl, he₁mem, he₂mem, hRa.1, hRa.2⟩

theorem popWf_mem : ∀ {pop : List (FieldDescriptor × Val)}, PopWf pop →
    ∀ {fd : FieldDescriptor} {v : Val}, (fd, v) ∈ pop → FieldWf fd v := by
  intro pop
  induction pop with
  | nil =>
    intro h fd v hm
    cases hm
  | cons e rest ih =>
    intro h fd v hm
    cases h with
    | cons hw hrest =>
      rcases List.mem_cons.mp hm with heq | hm₁
      · injection heq with h1 h2
        subst h1
        subst h2
        exact hw
      · exact ih hrest hm₁

theorem listWfF_mem {fd : FieldDescriptor} : ∀ {es : List Val},
    ListWfF fd es → ∀ {v : Val}, v ∈ es → SingWf fd v := by
  intro es
  induction es with
  | nil =>
    intro h v hm
    cases hm
  | cons e rest ih =>
    intro h v hm
    cases h with
    | cons hw hrest =>
      rcases List.mem_cons.mp hm with rfl | hm₁
      · exact hw
      · exact ih hrest hm₁

theorem mapWfF_mem_val {fd : FieldDescriptor} : ∀ {es : List (MapKey × Val)},
    MapWfF fd es → ∀ {e : MapKey × Val}, e ∈ es →
    SingWf (fd.mapValue.getD fd) e.2 := by
  intro es
  induction es with
  | nil =>
    intro h e hm
    cases hm
  | cons x rest ih =>
    intro h e hm
    cases h with
    | cons hk hw hrest =>
      rcases List.mem_cons.mp hm with rfl | hm₁
      · exact hw
      · exact ih hrest hm₁

theorem mapWfF_mem_key {fd : FieldDescriptor} : ∀ {es : List (MapKey × Val)},
    MapWfF fd es → ∀ {e : MapKey × Val}, e ∈ es →
    kindKeyMatch (fd.mapKey.getD fd).kind e.1 = true := by
  intro es
  induction es with
  | nil =>
    intro h e hm
    cases hm
  | cons x rest ih =>
    intro h e hm
    cases h with
    | cons hk hw hrest =>
      rcases List.mem_cons.mp hm with rfl | hm₁
      · exact hk
      · exact ih hrest hm₁

theorem extEntries_mem {pop : List (FieldDescriptor × Val)} {e : ExtEntry}
    (he : e ∈ extEntries pop) :
    (e.desc, e.value) ∈ pop ∧ e.desc.isExtension = true := by
  rcases List.mem_filterMap.mp he with ⟨⟨fd, v⟩, hmem, hf⟩
  by_cases hx : fd.isExtension
  · simp only [hx, if_true] at hf
    cases hf
    exact ⟨hmem, hx⟩
  · simp [hx] at hf

theorem mapKeyKL_asym (kk : Kind) {x y : MapKey}
    (h : mapKeyKL kk x y = true) : mapKeyKL kk y x = false := by
  have := mapKeyLess_asym kk (x, Val.invalid) (y, Val.invalid)
  simp only [mapKeyLess_eq_kl] at this
  exact this h

theorem mapKeyKL_trans (kk : Kind) {x y z : MapKey}
    (h₁ : mapKeyKL kk x y = true) (h₂ : mapKeyKL kk y z = true) :
    mapKeyKL kk x z = true := by
  have := mapKeyLess_trans kk (x, Val.invalid) (y, Val.invalid)
    (z, Val.invalid)
  simp only [mapKeyLess_eq_kl] at this
  exact this h₁ h₂

theorem mapKeyKL_total (kk : Kind) {x y : MapKey}
    (hx : kindKeyMatch kk x = true) (hy : kindKeyMatch kk y = true)
    (hne : x ≠ y) : mapKeyKL kk x y = true ∨ mapKeyKL kk y x = true := by
  have := mapKeyLess_total kk (x, Val.invalid) (y, Val.invalid) hx hy hne
  simp only [mapKeyLess_eq_kl] at this
  exact this

theorem forall₂_extEntries {l m : List (FieldDescriptor × Val)}
    (h : List.Forall₂ (fun a b => a.1 = b.1 ∧ ValEquiv a.2 b.2) l m) :
    List.Forall₂ (fun a b => a.key = b.key ∧ a.desc = b.desc ∧
      ValEquiv a.value b.value) (extEntries l) (extEntries m) := by
  induction h with
  | nil => exact .nil
  | @cons a b l' m' hR ht ih =>
    obtain ⟨hfd, hv⟩ := hR
    by_cases hx : a.1.isExtension = true
    · simp only [extEntries, List.filterMap_cons, ← hfd, hx, if_true]
      exact List.Forall₂.cons ⟨rfl, rfl, hv⟩ ih
    · simp only [extEntries, List.filterMap_cons, ← hfd]
      simp only [hx, if_false, Bool.false_eq_true]
      exact ih

theorem marshalEquiv (o : MarshalOptions) (fl : Flags) : ∀ fuel : Nat,
    (∀ m₁ m₂ : Msg, MsgWf m₁ → MsgWf m₂ → MsgEquiv m₁ m₂ → ∀ enc : Encoder,
      marshalMessage o fl fuel m₁ enc = marshalMessage o fl fuel m₂ enc) ∧
    (∀ m₁ m₂ : Msg, MsgWf m₁ → MsgWf m₂ → MsgEquiv m₁ m₂ → ∀ enc : Encoder,
      marshalFields o fl fuel m₁ enc = marshalFields o fl fuel m₂ enc) ∧
    (∀ (desc : MessageDescriptor) (pop₁ pop₂ : List (FieldDescriptor × Val)),
      MsgWf (.mk desc pop₁) → MsgWf (.mk desc pop₂) → PopRel pop₁ pop₂ →
      ∀ fds : List FieldDescriptor, (∀ f ∈ fds, f ∈ desc.fields) →
      ∀ enc : Encoder,
      marshalFieldLoop o fl fuel (.mk desc pop₁) fds enc =
        marshalFieldLoop o fl fuel (.mk desc pop₂) fds enc) ∧
    (∀ (v₁ v₂ : Val) (fd : FieldDescriptor), FieldWf fd v₁ → FieldWf fd v₂ →
      ValEquiv v₁ v₂ → ∀ enc : Encoder,
      marshalValue o fl fuel v₁ fd enc = marshalValue o fl fuel v₂ fd enc) ∧
    (∀ (v₁ v₂ : Val) (fd : FieldDescriptor), SingWf fd v₁ → SingWf fd v₂ →
      ValEquiv v₁ v₂ → ∀ enc : Encoder,
      marshalSingular o fl fuel v₁ fd enc =
        marshalSingular o fl fuel v₂ fd enc) ∧
    (∀ (es₁ es₂ : List Val) (fd : FieldDescriptor), ListWfF fd es₁ →
      ListWfF fd es₂ → ListEquiv es₁ es₂ → ∀ enc : Encoder,
      marshalList o fl fuel es₁ fd enc = marshalList o fl fuel es₂ fd enc) ∧
    (∀ (es₁ es₂ : List Val) (fd : FieldDescriptor), ListWfF fd es₁ →
      ListWfF fd es₂ → ListEquiv es₁ es₂ → ∀ enc : Encoder,
      marshalListLoop o fl fuel es₁ fd enc =
        marshalListLoop o fl fuel es₂ fd enc) ∧
    (∀ (es₁ es₂ : List (MapKey × Val)) (fd : FieldDescriptor),
      es₁.Pairwise (fun a b => a.1 ≠ b.1) → MapWfF fd es₁ → MapWfF fd es₂ →
      MapRel es₁ es₂ → ∀ enc : Encoder,
      marshalMap o fl fuel es₁ fd enc = marshalMap o fl fuel es₂ fd enc) ∧
    (∀ (l₁ l₂ : List (MapKey × Val)) (fd : FieldDescriptor),
      List.Forall₂ (fun a b => a.1 = b.1 ∧ ValEquiv a.2 b.2) l₁ l₂ →
      (∀ e ∈ l₁, SingWf (fd.mapValue.getD fd) e.2) →
      (∀ e ∈ l₂, SingWf (fd.mapValue.getD fd) e.2) → ∀ enc : Encoder,
      marshalMapLoop o fl fuel l₁ fd enc =
        marshalMapLoop o fl fuel l₂ fd enc) ∧
    (∀ m₁ m₂ : Msg, MsgWf m₁ → MsgWf m₂ → MsgEquiv m₁ m₂ → ∀ enc : Encoder,
      marshalExtensions o fl fuel m₁ enc =
        marshalExtensions o fl fuel m₂ enc) ∧
    (∀ l₁ l₂ : List ExtEntry,
      List.Forall₂ (fun a b =>
        a.key = b.key ∧ a.desc = b.desc ∧ ValEquiv a.value b.value) l₁ l₂ →
      (∀ e ∈ l₁, FieldWf e.desc e.value) →
      (∀ e ∈ l₂, FieldWf e.desc e.value) → ∀ enc : Encoder,
      marshalExtLoop o fl fuel l₁ enc = marshalExtLoop o fl fuel l₂ enc) := by
  intro fuel
  induction fuel with
  | zero =>
    refine ⟨?_, ?_, ?_, ?_, ?_, ?_, ?_, ?_, ?_, ?_, ?_⟩ <;> intros <;> rfl
  | succ fuel ih =>
    obtain ⟨ihM, ihF, ihL, ihV, ihS, ihLi, ihLL, ihMa, ihML, ihE, ihEL⟩ := ih
    refine ⟨?_, ?_, ?_, ?_, ?_, ?_, ?_, ?_, ?_, ?_, ?_⟩
    · intro m₁ m₂ hw₁ hw₂ he enc
      cases he with
      | @mk pop₁ pop₂ desc hpr =>
        by_cases hc : isCustomType desc.fullName
        · simp [marshalMessage, Msg.desc, marshalCustomType, hc]
        · have h2 := ihF (Msg.mk desc pop₁) (Msg.mk desc pop₂) hw₁ hw₂
            (.mk hpr)
          simp [marshalMessage, Msg.desc, hc, h2]
    · intro m₁ m₂ hw₁ hw₂ he enc
      cases he with
      | @mk pop₁ pop₂ desc hpr =>
        by_cases hms : (!fl.ProtoLegacy && desc.isMessageSet) = true
        · simp [marshalFields, Msg.desc, hms]
        · have h3 := ihL desc pop₁ pop₂ hw₁ hw₂ hpr desc.fields
            (fun f hf => hf)
          have h10 := ihE (Msg.mk desc pop₁) (Msg.mk desc pop₂) hw₁ hw₂
            (.mk hpr)
          rcases hX : marshalFieldLoop o fl fuel (Msg.mk desc pop₂)
              desc.fields enc with ⟨enc', err⟩
          cases err with
          | some e => simp [marshalFields, Msg.desc, hms, h3, hX]
          | none => simp [marshalFields, Msg.desc, hms, h3, hX, h10]
    · intro desc pop₁ pop₂ hw₁ hw₂ hpr fds hmem enc
      cases fds with
      | nil => rfl
      | cons fd rest =>
        have hmemrest : ∀ f ∈ rest, f ∈ desc.fields :=
          fun f hf => hmem f (List.mem_cons_of_mem _ hf)
        have hfdmem : fd ∈ desc.fields := hmem fd (List.mem_cons_self _ _)
        obtain ⟨mid, hpw, hperm⟩ := popRel_decomp hpr
        cases hw₁ with
        | mk hnd₁ hext₁ hfld₁ hfe₁ hin₁ hpwf₁ =>
        cases hw₂ with
        | mk hnd₂ hext₂ hfld₂ hfe₂ hin₂ hpwf₂ =>
        have hrest := ihL desc pop₁ pop₂
          (.mk hnd₁ hext₁ hfld₁ hfe₁ hin₁ hpwf₁)
          (.mk hnd₂ hext₂ hfld₂ hfe₂ hin₂ hpwf₂) hpr rest hmemrest
        rcases findRel hpw hperm hnd₁ fd with ⟨hn₁, hn₂⟩ |
          ⟨e₁, e₂, hf₁, hf₂, he₁m, he₂m, hfdeq, hveq⟩
        · have hhas₁ : Msg.Has (Msg.mk desc pop₁) fd = false := by
            simp [Msg.Has, Msg.pop, hn₁]
          have hhas₂ : Msg.Has (Msg.mk desc pop₂) fd = false := by
            simp [Msg.Has, Msg.pop, hn₂]
          have hsub : substitutedVal (Msg.mk desc pop₁) fd =
              substitutedVal (Msg.mk desc pop₂) fd := by
            simp [substitutedVal, hhas₁, hhas₂, Msg.Get, Msg.pop, hn₁, hn₂]
          by_cases hskip :
              (!(Msg.Has (Msg.mk desc pop₁) fd) &&
                (!o.EmitUnpopulated || fd.containingOneof)) = true
          · have hskip₂ : (!(Msg.Has (Msg.mk desc pop₂) fd) &&
                (!o.EmitUnpopulated || fd.containingOneof)) = true := by
              rw [hhas₂]; rw [hhas₁] at hskip; exact hskip
            simp [marshalFieldLoop, hskip, hskip₂, hrest]
          · have hskip₂ : ¬ (!(Msg.Has (Msg.mk desc pop₂) fd) &&
                (!o.EmitUnpopulated || fd.containingOneof)) = true := by
              rw [hhas₂]; rw [hhas₁] at hskip; exact hskip
            rcases hX : marshalValue o fl fuel
                (substitutedVal (Msg.mk desc pop₂) fd) fd
                (enc.WriteName (fieldEmitName o fd)) with ⟨enc', err⟩
            cases err with
            | some e => simp [marshalFieldLoop, hskip, hskip₂, hsub, hX]
            | none => simp [marshalFieldLoop, hskip, hskip₂, hsub, hX, hrest]
        · have hhas₁ : Msg.Has (Msg.mk desc pop₁) fd = true := by
            simp [Msg.Has, Msg.pop, hf₁]
          have hhas₂ : Msg.Has (Msg.mk desc pop₂) fd = true := by
            simp [Msg.Has, Msg.pop, hf₂]
          have hsub₁ : substitutedVal (Msg.mk desc pop₁) fd = e₁.2 := by
            simp [substitutedVal, hhas₁, Msg.Get, Msg.pop, hf₁]
          have hsub₂ : substitutedVal (Msg.mk desc pop₂) fd = e₂.2 := by
            simp [substitutedVal, hhas₂, Msg.Get, Msg.pop, hf₂]
          have hmatch₁ : fdMatch e₁.1 fd = true := by
            simpa using List.find?_some hf₁
          have hnum₁ : e₁.1.number = fd.number ∧
              e₁.1.isExtension = fd.isExtension := by
            simpa [fdMatch] using hmatch₁
          have hne₁ : e₁.1.isExtension = false := by
            rw [hnum₁.2]; exact hfe₁ fd hfdmem
          have he₁fields : e₁.1 ∈ desc.fields := hin₁ e₁ he₁m hne₁
          have he₁fd : e₁.1 = fd :=
            uniqueMatchFd hfld₁ he₁fields hfdmem hmatch₁ (fdMatch_refl fd)
          have he₂fd : e₂.1 = fd := hfdeq.symm.trans he₁fd
          have hfw₁ : FieldWf fd e₁.2 := by
            have := popWf_mem hpwf₁ (show (e₁.1, e₁.2) ∈ pop₁ from he₁m)
            rwa [he₁fd] at this
          have hfw₂ : FieldWf fd e₂.2 := by
            have := popWf_mem hpwf₂ (show (e₂.1, e₂.2) ∈ pop₂ from he₂m)
            rwa [he₂fd] at this
          have h4 := ihV e₁.2 e₂.2 fd hfw₁ hfw₂ hveq
          have hskip₁ : ¬ (!(Msg.Has (Msg.mk desc pop₁) fd) &&
              (!o.EmitUnpopulated || fd.containingOneof)) = true := by
            simp [hhas₁]
          have hskip₂ : ¬ (!(Msg.Has (Msg.mk desc pop₂) fd) &&
              (!o.EmitUnpopulated || fd.containingOneof)) = true := by
            simp [hhas₂]
          rcases hX : marshalValue o fl fuel e₂.2 fd
              (enc.WriteName (fieldEmitName o fd)) with ⟨enc', err⟩
          cases err with
          | some e =>
            simp [marshalFieldLoop, hskip₁, hskip₂, hsub₁, hsub₂, h4, hX]
          | none =>
            simp [marshalFieldLoop, hskip₁, hskip₂, hsub₁, hsub₂, h4, hX,
              hrest]
    · intro v₁ v₂ fd hfw₁ hfw₂ hv enc
      by_cases hl : fd.IsList
      · have hl' := hl
        simp [FieldDescriptor.IsList] at hl'
        have hnm : fd.IsMap = false := hl'.2
        obtain ⟨es₁, rfl, hlw₁⟩ : ∃ es, v₁ = Val.vlist es ∧ ListWfF fd es := by
          cases hfw₁ with
          | list h hw => exact ⟨_, rfl, hw⟩
          | map hm _ _ => simp [hnm] at hm
          | singular hli _ _ => simp [hl] at hli
        obtain ⟨es₂, rfl, hlw₂⟩ : ∃ es, v₂ = Val.vlist es ∧ ListWfF fd es := by
          cases hfw₂ with
          | list h hw => exact ⟨_, rfl, hw⟩
          | map hm _ _ => simp [hnm] at hm
          | singular hli _ _ => simp [hl] at hli
        cases hv with
        | vlist hle =>
          have h6 := ihLi es₁ es₂ fd hlw₁ hlw₂ hle
          simp [marshalValue, hl, Val.getList, h6]
      · by_cases hm : fd.IsMap
        · obtain ⟨es₁, rfl, hkd₁, hmw₁⟩ : ∃ es, v₁ = Val.vmap es ∧
              es.Pairwise (fun a b => a.1 ≠ b.1) ∧ MapWfF fd es := by
            cases hfw₁ with
            | list hle _ => exact absurd hle hl
            | map _ hp hw => exact ⟨_, rfl, hp, hw⟩
            | singular _ hmi _ => simp [hm] at hmi
          obtain ⟨es₂, rfl, hkd₂, hmw₂⟩ : ∃ es, v₂ = Val.vmap es ∧
              es.Pairwise (fun a b => a.1 ≠ b.1) ∧ MapWfF fd es := by
            cases hfw₂ with
            | list hle _ => exact absurd hle hl
            | map _ hp hw => exact ⟨_, rfl, hp, hw⟩
            | singular _ hmi _ => simp [hm] at hmi
          cases hv with
          | vmap hmr =>
            have h8 := ihMa es₁ es₂ fd hkd₁ hmw₁ hmw₂ hmr
            simp [marshalValue, hl, hm, Val.getMap, h8]
        · have hsw₁ : SingWf fd v₁ := by
            cases hfw₁ with
            | list hle _ => exact absurd hle hl
            | map hmm _ _ => exact absurd hmm hm
            | singular _ _ hw => exact hw
          have hsw₂ : SingWf fd v₂ := by
            cases hfw₂ with
            | list hle _ => exact absurd hle hl
            | map hmm _ _ => exact absurd hmm hm
            | singular _ _ hw => exact hw
          have h5 := ihS v₁ v₂ fd hsw₁ hsw₂ hv
          simp [marshalValue, hl, hm, h5]
    · intro v₁ v₂ fd hsw₁ hsw₂ hv enc
      cases hv with
      | invalid => rfl
      | vbool b => rfl
      | vstr s => rfl
      | vint i => rfl
      | vuint u => rfl
      | vfloat f => rfl
      | vbytes bs => rfl
      | venum n => rfl
      | @vmsg mm₁ mm₂ hme =>
        have hmw₁ : MsgWf mm₁ := by
          cases hsw₁ with
          | vmsg hw => exact hw
          | notMsg hne => exact absurd rfl (hne mm₁)
        have hmw₂ : MsgWf mm₂ := by
          cases hsw₂ with
          | vmsg hw => exact hw
          | notMsg hne => exact absurd rfl (hne mm₂)
        have h1 := ihM mm₁ mm₂ hmw₁ hmw₂ hme
        cases hk : fd.kind <;>
          simp [marshalSingular, hk, Val.IsValid, Val.getBool, Val.getInt,
            Val.getUint, Val.getFloat, Val.getBytes, Val.getEnum,
            Val.valString, Val.getMsg, h1]
      | @vlist les₁ les₂ hle =>
        cases hk : fd.kind <;>
          simp [marshalSingular, hk, Val.IsValid, Val.getBool, Val.getInt,
            Val.getUint, Val.getFloat, Val.getBytes, Val.getEnum,
            Val.valString, Val.getMsg]
      | @vmap mes₁ mes₂ hmr =>
        cases hk : fd.kind <;>
          simp [marshalSingular, hk, Val.IsValid, Val.getBool, Val.getInt,
            Val.getUint, Val.getFloat, Val.getBytes, Val.getEnum,
            Val.valString, Val.getMsg]
    · intro es₁ es₂ fd hlw₁ hlw₂ hle enc
      have h7 := ihLL es₁ es₂ fd hlw₁ hlw₂ hle
      simp [marshalList, h7]
    · intro es₁ es₂ fd hlw₁ hlw₂ hle enc
      cases hle with
      | nil => rfl
      | @cons v₁ v₂ l₁ l₂ hv hrest =>
        cases hlw₁ with
        | cons hw₁ hr₁ =>
        cases hlw₂ with
        | cons hw₂ hr₂ =>
        have h5 := ihS v₁ v₂ fd hw₁ hw₂ hv
        have hR := ihLL l₁ l₂ fd hr₁ hr₂ hrest
        rcases hX : marshalSingular o fl fuel v₂ fd enc with ⟨enc', err⟩
        cases err with
        | some e => simp [marshalListLoop, h5, hX]
        | none => simp [marshalListLoop, h5, hX, hR]
    · intro es₁ es₂ fd hkd hmw₁ hmw₂ hmr enc
      obtain ⟨mid, hpw, hperm⟩ := mapRel_decomp hmr
      have hkeyR : ∀ a b : MapKey × Val,
          (fun a b : MapKey × Val => a.1 = b.1 ∧ ValEquiv a.2 b.2) a b →
          a.1 = b.1 := fun a b h => h.1
      have hasymK : ∀ x y : MapKey,
          mapKeyKL (fd.mapKey.getD fd).kind x y = true →
          mapKeyKL (fd.mapKey.getD fd).kind y x = false :=
        fun x y h => mapKeyKL_asym _ h
      have htransK : ∀ x y z : MapKey,
          mapKeyKL (fd.mapKey.getD fd).kind x y = true →
          mapKeyKL (fd.mapKey.getD fd).kind y z = true →
          mapKeyKL (fd.mapKey.getD fd).kind x z = true :=
        fun x y z h₁ h₂ => mapKeyKL_trans _ h₁ h₂
      have htot : ∀ a ∈ es₁, ∀ b ∈ es₁, a.1 ≠ b.1 →
          mapKeyKL (fd.mapKey.getD fd).kind a.1 b.1 = true ∨
          mapKeyKL (fd.mapKey.getD fd).kind b.1 a.1 = true := by
        intro a ha b hb hne
        exact mapKeyKL_total _ (mapWfF_mem_key hmw₁ ha)
          (mapWfF_mem_key hmw₁ hb) hne
      have halign := sortSlice_align hasymK htransK hkeyR hpw hperm hkd htot
      have hfun : mapKeyLess (fd.mapKey.getD fd).kind =
          fun a b : MapKey × Val =>
            mapKeyKL (fd.mapKey.getD fd).kind a.1 b.1 :=
        funext fun a => funext fun b => mapKeyLess_eq_kl _ a b
      have hs₁ : ∀ e ∈ sortSlice (mapKeyLess (fd.mapKey.getD fd).kind) es₁,
          SingWf (fd.mapValue.getD fd) e.2 :=
        fun e he => mapWfF_mem_val hmw₁ ((sortSlice_perm _ es₁).subset he)
      have hs₂ : ∀ e ∈ sortSlice (mapKeyLess (fd.mapKey.getD fd).kind) es₂,
          SingWf (fd.mapValue.getD fd) e.2 :=
        fun e he => mapWfF_mem_val hmw₂ ((sortSlice_perm _ es₂).subset he)
      have halign' : List.Forall₂
          (fun a b : MapKey × Val => a.1 = b.1 ∧ ValEquiv a.2 b.2)
          (sortSlice (mapKeyLess (fd.mapKey.getD fd).kind) es₁)
          (sortSlice (mapKeyLess (fd.mapKey.getD fd).kind) es₂) := by
        rw [hfun]; exact halign
      have h9 := ihML _ _ fd halign' hs₁ hs₂
      simp [marshalMap, sortMap, h9]
    · intro l₁ l₂ fd hf hv₁ hv₂ enc
      cases hf with
      | nil => rfl
      | @cons e₁ e₂ l₁' l₂' hR hrest =>
        have hw₁ := hv₁ e₁ (List.mem_cons_self _ _)
        have hw₂ := hv₂ e₂ (List.mem_cons_self _ _)
        have h5 := ihS e₁.2 e₂.2 (fd.mapValue.getD fd) hw₁ hw₂ hR.2
        have hRrest := ihML l₁' l₂' fd hrest
          (fun e he => hv₁ e (List.mem_cons_of_mem _ he))
          (fun e he => hv₂ e (List.mem_cons_of_mem _ he))
        rcases hX : marshalSingular o fl fuel e₂.2 (fd.mapValue.getD fd)
            (enc.WriteName e₂.1.keyString) with ⟨enc', err⟩
        cases err with
        | some e => simp [marshalMapLoop, hR.1, h5, hX]
        | none => simp [marshalMapLoop, hR.1, h5, hX, hRrest]
    · intro m₁ m₂ hw₁ hw₂ he enc
      cases he with
      | @mk pop₁ pop₂ desc hpr =>
        obtain ⟨mid, hpw, hperm⟩ := popRel_decomp hpr
        cases hw₁ with
        | mk hnd₁ hext₁ hfld₁ hfe₁ hin₁ hpwf₁ =>
        cases hw₂ with
        | mk hnd₂ hext₂ hfld₂ hfe₂ hin₂ hpwf₂ =>
        have hE := forall₂_extEntries hpw
        have hpermE : (extEntries mid).Perm (extEntries pop₂) :=
          hperm.filterMap _
        have hkeyR : ∀ a b : ExtEntry,
            (fun a b : ExtEntry => a.key = b.key ∧ a.desc = b.desc ∧
              ValEquiv a.value b.value) a b →
            a.key.data = b.key.data :=
          fun a b h => congrArg String.data h.1
        have hasymE : ∀ x y : List Char, decide (x < y) = true →
            decide (y < x) = false := by
          intro x y h
          simp only [decide_eq_true_eq] at h
          simpa using lt_asymm h
        have htransE : ∀ x y z : List Char, decide (x < y) = true →
            decide (y < z) = true → decide (x < z) = true := by
          intro x y z h₁ h₂
          simp only [decide_eq_true_eq] at h₁ h₂ ⊢
          exact lt_trans h₁ h₂
        have hkd : (extEntries pop₁).Pairwise
            (fun a b => a.key.data ≠ b.key.data) :=
          pairwise_imp_mem hext₁ fun a b _ _ hne h => hne (String.ext h)
        have htot : ∀ a ∈ extEntries pop₁, ∀ b ∈ extEntries pop₁,
            a.key.data ≠ b.key.data →
            decide (a.key.data < b.key.data) = true ∨
            decide (b.key.data < a.key.data) = true := by
          intro a _ b _ hne
          simp only [decide_eq_true_eq]
          exact lt_or_gt_of_ne hne
        have halign := sortSlice_align hasymE htransE hkeyR hE hpermE hkd htot
        have halign' : List.Forall₂
            (fun a b : ExtEntry => a.key = b.key ∧ a.desc = b.desc ∧
              ValEquiv a.value b.value)
            (sortSlice extLess (extEntries pop₁))
            (sortSlice extLess (extEntries pop₂)) := halign
        have hfw₁ : ∀ e ∈ sortSlice extLess (extEntries pop₁),
            FieldWf e.desc e.value := by
          intro e he
          have hm := (sortSlice_perm extLess (extEntries pop₁)).subset he
          obtain ⟨hmem, _⟩ := extEntries_mem hm
          exact popWf_mem hpwf₁ hmem
        have hfw₂ : ∀ e ∈ sortSlice extLess (extEntries pop₂),
            FieldWf e.desc e.value := by
          intro e he
          have hm := (sortSlice_perm extLess (extEntries pop₂)).subset he
          obtain ⟨hmem, _⟩ := extEntries_mem hm
          exact popWf_mem hpwf₂ hmem
        have h11 := ihEL _ _ halign' hfw₁ hfw₂
        simp [marshalExtensions, Msg.pop, h11]
    · intro l₁ l₂ hf hfw₁ hfw₂ enc
      cases hf with
      | nil => rfl
      | @cons e₁ e₂ l₁' l₂' hR hrest =>
        obtain ⟨hkey, hdesc, hval⟩ := hR
        have hw₁ : FieldWf e₂.desc e₁.value := by
          have := hfw₁ e₁ (List.mem_cons_self _ _)
          rwa [hdesc] at this
        have hw₂ := hfw₂ e₂ (List.mem_cons_self _ _)
        have h4 := ihV e₁.value e₂.value e₂.desc hw₁ hw₂ hval
        have hRrest := ihEL l₁' l₂' hrest
          (fun e he => hfw₁ e (List.mem_cons_of_mem _ he))
          (fun e he => hfw₂ e (List.mem_cons_of_mem _ he))
        rcases hX : marshalValue o fl fuel e₂.value e₂.desc
            (enc.WriteName ("[" ++ e₂.key ++ "]")) with ⟨enc', err⟩
        cases err with
        | some e => simp [marshalExtLoop, hkey, hdesc, h4, hX]
        | none => simp [marshalExtLoop, hkey, hdesc, h4, hX, hRrest]

/-- C2: For every pair of well-formed messages with the same logical
content (same populated fields and values, differing only in internal
map-entry and extension-field storage/iteration order), encoding with the
same configuration yields identical output: the whole body transcoding
agrees token for token at every encoder state, and `Marshal` returns
byte-identical output. -/
theorem C2_encoding_deterministic (o : MarshalOptions) (fl : Flags)
    (fuel : Nat) (m₁ m₂ : Msg) (hw₁ : MsgWf m₁) (hw₂ : MsgWf m₂)
    (he : MsgEquiv m₁ m₂) :
    (∀ enc : Encoder,
      marshalMessage o fl fuel m₁ enc = marshalMessage o fl fuel m₂ enc) ∧
    (o.Marshal fl fuel m₁).1 = (o.Marshal fl fuel m₂).1 := by
  have hmsg := (marshalEquiv o fl fuel).1 m₁ m₂ hw₁ hw₂ he
  refine ⟨hmsg, ?_⟩
  unfold MarshalOptions.Marshal
  cases hne : NewEncoder o.Indent with
  | error e => rfl
  | ok enc =>
    rcases hX : marshalMessage o fl fuel m₂ enc with ⟨enc', err⟩
    have hX₁ : marshalMessage o fl fuel m₁ enc = (enc', err) :=
      (hmsg enc).trans hX
    cases err with
    | some e => simp [hX, hX₁]
    | none => by_cases hp : o.AllowPartial <;> simp [hX, hX₁, hp]

theorem C2_witness :
    MsgWf mC2AW ∧ MsgWf mC2BW ∧ MsgEquiv mC2AW mC2BW ∧
    (MarshalOptions.Marshal {} ⟨false⟩ 9 mC2AW).1 =
      (MarshalOptions.Marshal {} ⟨false⟩ 9 mC2BW).1 ∧
    (MarshalOptions.Marshal {} ⟨false⟩ 9 mC2AW).1 =
      some "\x7b\"mp\":\x7b\"1\":10,\"2\":20\x7d,\"[ext.a]\":1,\"[ext.b]\":2\x7d" := by
  have hswInt : ∀ (fd : FieldDescriptor) (i : Int), SingWf fd (.vint i) :=
    fun fd i => .notMsg fun m h => nomatch h
  have hpopwfA : PopWf mC2AW.pop :=
    .cons (.map (by decide) (by decide)
        (.cons (by decide) (hswInt _ _)
          (.cons (by decide) (hswInt _ _) .nil)))
      (.cons (.singular (by decide) (by decide) (hswInt _ _))
        (.cons (.singular (by decide) (by decide) (hswInt _ _)) .nil))
  have hpopwfB : PopWf mC2BW.pop :=
    .cons (.singular (by decide) (by decide) (hswInt _ _))
      (.cons (.map (by decide) (by decide)
          (.cons (by decide) (hswInt _ _)
            (.cons (by decide) (hswInt _ _) .nil)))
        (.cons (.singular (by decide) (by decide) (hswInt _ _)) .nil))
  have hwA : MsgWf mC2AW := by
    refine .mk (by decide) (by decide) (by decide) (by decide) ?_ hpopwfA
    intro e he hne
    simp only [List.mem_cons, List.not_mem_nil, or_false] at he
    rcases he with rfl | rfl | rfl
    · simp [dC2W, MessageDescriptor.fields]
    · exact absurd hne (by decide)
    · exact absurd hne (by decide)
  have hwB : MsgWf mC2BW := by
    refine .mk (by decide) (by decide) (by decide) (by decide) ?_ hpopwfB
    intro e he hne
    simp only [List.mem_cons, List.not_mem_nil, or_false] at he
    rcases he with rfl | rfl | rfl
    · exact absurd hne (by decide)
    · simp [dC2W, MessageDescriptor.fields]
    · exact absurd hne (by decide)
  have hmr : MapRel mapAW mapBW :=
    @MapRel.ins (Val.vint 10) (Val.vint 10) [(MapKey.kint 2, Val.vint 20)]
      [(MapKey.kint 2, Val.vint 20)] [] (MapKey.kint 1) (.vint 10)
      (@MapRel.ins (Val.vint 20) (Val.vint 20) [] [] [] (MapKey.kint 2)
        (.vint 20) .nil)
  have heq : MsgEquiv mC2AW mC2BW :=
    .mk (@PopRel.ins (Val.vmap mapAW) (Val.vmap mapBW)
      [(fdExtAW, Val.vint 1), (fdExtBW, Val.vint 2)]
      [(fdExtBW, Val.vint 2)] [(fdExtAW, Val.vint 1)] fdMapW (.vmap hmr)
      (@PopRel.ins (Val.vint 1) (Val.vint 1) [(fdExtBW, Val.vint 2)]
        [(fdExtBW, Val.vint 2)] [] fdExtAW (.vint 1)
        (@PopRel.ins (Val.vint 2) (Val.vint 2) [] [] [] fdExtBW (.vint 2)
          .nil)))
  have h := C2_encoding_deterministic {} ⟨false⟩ 9 mC2AW mC2BW hwA hwB heq
  exact ⟨hwA, hwB, heq, h.2, rfl⟩
